import Mathlib

namespace MLSpp

/-!
Verification of the MLS message layer (`src/messages.cpp`, `include/common.h`)
of the mlspp repository, as a shallow embedding in Lean 4.

Modelling conventions:
* `bytes` (`std::vector<uint8_t>`) is `List Nat`; a well-formed byte string has
  every element `< 256`.  Machine integers are `Nat` with explicit `% 2 ^ w`
  at the points where C++ performs a narrowing conversion.
* Fallible C++ code (functions that may `throw`) is embedded as
  `Except Err _`; each `Err` constructor corresponds to one of the exception
  classes declared in `include/common.h`, plus `outOfBoundsRead`, which marks
  an out-of-range container access (undefined behavior in the C++ source).
* `std::optional<T>::value()` is `optValue : Option T → Except Err T`,
  erroring with `badOptionalAccess` on an absent value, as in C++.
* The TLS presentation codec (`tls_syntax.h`) and the crypto facade
  (`crypto.h`) are not part of the source under inspection; where their
  behavior is needed they are modelled from the specification, and each such
  definition carries a doc comment starting with `Modelled from the spec:`.
-/

/-- Byte strings (`std::vector<uint8_t>` / `mls::bytes`). -/
abbrev bytes := List Nat

/-- A well-formed byte string: every element is an actual octet. -/
def bytesWF (b : bytes) : Prop := ∀ x ∈ b, x < 256

instance (b : bytes) : Decidable (bytesWF b) := by
  unfold bytesWF; infer_instance

/-- The error taxonomy of `include/common.h`, restricted to the kinds that the
embedded code can raise, together with `badOptionalAccess`
(`std::bad_optional_access`, raised by `std::optional::value()` on an empty
optional) and `outOfBoundsRead` (an out-of-range container access, which is
undefined behavior in the C++ source and is surfaced here as a distinguished
outcome). -/
inductive Err where
  | invalidTLSSyntax
  | invalidParameter
  | protocolError
  | invalidMessageType
  | missingNode
  | badOptionalAccess
  | outOfBoundsRead
  deriving DecidableEq, Repr

/-- `std::optional<T>::value()`: the contained value, or
`std::bad_optional_access`. -/
def optValue {α : Type} : Option α → Except Err α
  | some a => .ok a
  | none => .error .badOptionalAccess

/-!
## TLS presentation codec primitives

Modelled from the spec (§4.2): unsigned integers serialize big-endian in a
fixed number of octets; length-prefixed sequences carry a header of
`H ∈ {1,2,3,4}` octets holding the byte length of the payload; decoding
rejects payloads whose declared length exceeds the remaining input.
-/

/-- Modelled from the spec: big-endian encoding of `n` into exactly `w`
octets (the TLS codec's `uint8`/`uint16`/`uint32` writers; the value is
reduced mod `2 ^ (8 * w)` exactly as the C++ narrowing conversion does). -/
def toBytesBE : Nat → Nat → bytes
  | 0, _ => []
  | w + 1, n => toBytesBE w (n / 256) ++ [n % 256]

/-- Modelled from the spec: big-endian interpretation of a byte string. -/
def fromBytesBE (b : bytes) : Nat := b.foldl (fun acc x => acc * 256 + x) 0

/-- A decoder consumes a prefix of the input and returns the decoded value
together with the remaining input, or a decode error. -/
abbrev Dec (α : Type) := bytes → Except Err (α × bytes)

instance {ε α : Type} [DecidableEq ε] [DecidableEq α] : DecidableEq (Except ε α) :=
  fun x y =>
  match x, y with
  | .ok a, .ok b => if h : a = b then isTrue (by rw [h]) else isFalse (by simp [h])
  | .error e, .error f => if h : e = f then isTrue (by rw [h]) else isFalse (by simp [h])
  | .ok _, .error _ => isFalse (by simp)
  | .error _, .ok _ => isFalse (by simp)

instance {α : Type} (o : Option α) (p : α → Prop) [DecidablePred p] :
    Decidable (∃ a, o = some a ∧ p a) :=
  match o with
  | none => isFalse (by simp)
  | some a => decidable_of_iff (p a) (by simp)

/-- Modelled from the spec: read a `w`-octet big-endian unsigned integer;
truncated input is an `InvalidTLSSyntax` error. -/
def decUint (w : Nat) : Dec Nat := fun b =>
  if w ≤ b.length then .ok (fromBytesBE (b.take w), b.drop w)
  else .error .invalidTLSSyntax

/-- Modelled from the spec: a length-prefixed opaque field — a `hdr`-octet
big-endian byte length followed by that many payload octets. -/
def encVar (hdr : Nat) (p : bytes) : bytes := toBytesBE hdr p.length ++ p

/-- Modelled from the spec: read a length-prefixed opaque field; a declared
length exceeding the remaining input is an `InvalidTLSSyntax` error. -/
def decVar (hdr : Nat) : Dec bytes := fun b => do
  let (len, rest) ← decUint hdr b
  if len ≤ rest.length then .ok (rest.take len, rest.drop len)
  else .error .invalidTLSSyntax

/-- Modelled from the spec: the body of a length-prefixed sequence is the
concatenation of the element encodings. -/
def encElems {α : Type} (encE : α → bytes) (xs : List α) : bytes :=
  (xs.map encE).flatten

/-- Modelled from the spec: a length-prefixed sequence of elements — a
`hdr`-octet byte length followed by the element encodings. -/
def encVec {α : Type} (hdr : Nat) (encE : α → bytes) (xs : List α) : bytes :=
  encVar hdr (encElems encE xs)

/-- Modelled from the spec: decode elements from a payload until it is
exhausted.  The fuel argument (instantiated with the payload length) bounds
the recursion; every well-formed element encoding is non-empty, so the fuel
never runs out on valid input. -/
def decElems {α : Type} (decE : Dec α) : Nat → bytes → Except Err (List α)
  | _, [] => .ok []
  | 0, _ :: _ => .error .invalidTLSSyntax
  | fuel + 1, x :: b => do
    let (a, rest) ← decE (x :: b)
    let as ← decElems decE fuel rest
    .ok (a :: as)

/-- Modelled from the spec: decode a length-prefixed sequence of elements. -/
def decVec {α : Type} (hdr : Nat) (decE : Dec α) : Dec (List α) := fun b => do
  let (payload, rest) ← decVar hdr b
  let xs ← decElems decE payload.length payload
  .ok (xs, rest)

/-- A correct element codec: decoding an encoding (followed by anything)
recovers the element and the rest, and every encoding is non-empty. -/
def GoodEnc {α : Type} (encE : α → bytes) (decE : Dec α) (P : α → Prop) : Prop :=
  ∀ x, P x → (∀ r, decE (encE x ++ r) = .ok (x, r)) ∧ 1 ≤ (encE x).length

/-- Modelled from the spec: optional values are one octet (`0` absent, `1`
present) followed by the inner encoding when present. -/
def encOpt {α : Type} (encE : α → bytes) : Option α → bytes
  | none => [0]
  | some x => 1 :: encE x

/-- Modelled from the spec: decode an optional value. -/
def decOpt {α : Type} (decE : Dec α) : Dec (Option α) := fun b =>
  match b with
  | [] => .error .invalidTLSSyntax
  | 0 :: rest => .ok (none, rest)
  | 1 :: rest => do
    let (x, rest') ← decE rest
    .ok (some x, rest')
  | _ :: _ => .error .invalidTLSSyntax

/-!
## Crypto facade

The primitive crypto library is outside the source under inspection; the
definitions below are functional models of its contracts (§4.3, §6 of the
spec): key derivation is deterministic, HPKE decryption inverts encryption
under the matching private key, and signature verification accepts every
signature produced over the payload (several distinct byte strings may
verify, as under the non-deterministic P-256/P-521 schemes).
-/

/-- Modelled from the spec: the public key of a DH/HPKE private key
(deterministic, injective derivation). -/
def dhPub (priv : bytes) : bytes := 1 :: priv

/-- Modelled from the spec: the public key of a signature private key
(deterministic, injective derivation). -/
def sigPub (priv : bytes) : bytes := 2 :: priv

/-- Modelled from the spec: produce a signature over `m`.  The leading octet
models the signer's randomness (here a fixed choice); `sigVerify` accepts any
leading octet, so distinct valid signatures over the same payload exist, as
under the non-deterministic schemes. -/
def sigSign (priv : bytes) (m : bytes) : bytes := 0 :: (sigPub priv ++ m)

/-- Modelled from the spec: signature verification — the signature binds the
public key and the payload; the leading (randomness) octet is ignored. -/
def sigVerify (pub : bytes) (m : bytes) (s : bytes) : Bool :=
  match s with
  | [] => false
  | _ :: rest => rest == pub ++ m

/-- `HPKECiphertext` (crypto facade): an ephemeral public share plus an AEAD
output, tagged with its cipher suite. -/
structure HPKECiphertext where
  suite : Nat
  ephemeral : bytes
  content : bytes
  deriving DecidableEq, Repr

/-- Modelled from the spec: single-shot HPKE encryption to a public key.  The
`ephemeral` field carries the share that identifies the recipient key; the
`content` field stands for the AEAD output. -/
def hpkeSeal (suite : Nat) (pub : bytes) (m : bytes) : HPKECiphertext :=
  { suite := suite, ephemeral := pub, content := m }

/-- Modelled from the spec: single-shot HPKE decryption; succeeds exactly
under the private key matching the recipient public key. -/
def hpkeOpen (priv : bytes) (ct : HPKECiphertext) : Except Err bytes :=
  if ct.ephemeral = dhPub priv then .ok ct.content else .error .protocolError

/-!
## Credentials and basic crypto wire types

`Credential`, `DHPublicKey` and the `HPKECiphertext` codec live outside
`src/`; their wire formats and equality are modelled from the spec (§3, §4.2).
Length-prefix header widths for fields whose declarations are outside the
source are modelled choices; no claim depends on the particular widths.
-/

/-- A credential binds an identity octet string to a signature public key and
optionally carries the private key when held by its owner (spec §3). -/
structure Credential where
  identity : bytes
  pubKey : bytes
  privKey : Option bytes
  deriving DecidableEq, Repr

/-- Modelled from the spec: credential equality compares the public contents
(identity and public key); the private key never appears on the wire. -/
def credEq (l r : Credential) : Bool :=
  l.identity == r.identity && l.pubKey == r.pubKey

/-- Modelled from the spec: wire encoding of a credential. -/
def encCredential (c : Credential) : bytes :=
  encVar 2 c.identity ++ encVar 2 c.pubKey

/-- Modelled from the spec: decode a credential; the wire form carries no
private key. -/
def decCredential : Dec Credential := fun b => do
  let (ident, b) ← decVar 2 b
  let (pk, b) ← decVar 2 b
  .ok ({ identity := ident, pubKey := pk, privKey := none }, b)

/-- A credential whose fields fit their wire length prefixes. -/
def Credential.WF (c : Credential) : Prop :=
  c.identity.length < 256 ^ 2 ∧ c.pubKey.length < 256 ^ 2

instance (c : Credential) : Decidable c.WF := by unfold Credential.WF; infer_instance

/-- Drop the private key, as serialization does. -/
def Credential.scrub (c : Credential) : Credential := { c with privKey := none }

/-- `DHPublicKey` (crypto facade): a cipher-suite-aware wrapper around the
serialized public key bytes. -/
structure DHPublicKey where
  suite : Nat
  data : bytes
  deriving DecidableEq, Repr

/-- Modelled from the spec: wire encoding of a DH public key (opaque). -/
def encDHPublicKey (k : DHPublicKey) : bytes := encVar 2 k.data

/-- Modelled from the spec: decode a DH public key, threading the decoding
suite. -/
def decDHPublicKey (suite : Nat) : Dec DHPublicKey := fun b => do
  let (d, rest) ← decVar 2 b
  .ok ({ suite := suite, data := d }, rest)

def DHPublicKey.WF (s : Nat) (k : DHPublicKey) : Prop :=
  k.suite = s ∧ k.data.length < 256 ^ 2

instance (s : Nat) (k : DHPublicKey) : Decidable (k.WF s) := by
  unfold DHPublicKey.WF; infer_instance

/-- Modelled from the spec: wire encoding of an HPKE ciphertext — the
ephemeral share then the AEAD output, both length-prefixed. -/
def encHPKECiphertext (ct : HPKECiphertext) : bytes :=
  encVar 2 ct.ephemeral ++ encVar 4 ct.content

/-- Modelled from the spec: decode an HPKE ciphertext, threading the decoding
suite. -/
def decHPKECiphertext (suite : Nat) : Dec HPKECiphertext := fun b => do
  let (e, b) ← decVar 2 b
  let (c, rest) ← decVar 4 b
  .ok ({ suite := suite, ephemeral := e, content := c }, rest)

def HPKECiphertext.WF (s : Nat) (ct : HPKECiphertext) : Prop :=
  ct.suite = s ∧ ct.ephemeral.length < 256 ^ 2 ∧ ct.content.length < 256 ^ 4

instance (s : Nat) (ct : HPKECiphertext) : Decidable (ct.WF s) := by
  unfold HPKECiphertext.WF; infer_instance

/-!
## RatchetNode and DirectPath (`src/messages.cpp` lines 7–64)
-/

/-- `RatchetNode`: a public key plus the HPKE ciphertexts of a path secret. -/
structure RatchetNode where
  suite : Nat
  public_key : DHPublicKey
  node_secrets : List HPKECiphertext
  deriving DecidableEq, Repr

/-- `operator==(RatchetNode, RatchetNode)`: compares `public_key` and
`node_secrets`. -/
def ratchetNodeEq (l r : RatchetNode) : Bool :=
  l.public_key == r.public_key && l.node_secrets == r.node_secrets

/-- `operator<<(ostream, RatchetNode)`: `out << public_key << node_secrets`. -/
def encRatchetNode (n : RatchetNode) : bytes :=
  encDHPublicKey n.public_key ++ encVec 2 encHPKECiphertext n.node_secrets

/-- `operator>>(istream, RatchetNode)`: `in >> public_key >> node_secrets`,
threading the cipher suite of the enclosing object. -/
def decRatchetNode (suite : Nat) : Dec RatchetNode := fun b => do
  let (pk, b) ← decDHPublicKey suite b
  let (ns, rest) ← decVec 2 (decHPKECiphertext suite) b
  .ok ({ suite := suite, public_key := pk, node_secrets := ns }, rest)

def RatchetNode.WF (s : Nat) (n : RatchetNode) : Prop :=
  n.suite = s ∧ n.public_key.WF s ∧ (∀ ct ∈ n.node_secrets, ct.WF s) ∧
    (encElems encHPKECiphertext n.node_secrets).length < 256 ^ 2

instance (s : Nat) (n : RatchetNode) : Decidable (n.WF s) := by
  unfold RatchetNode.WF; infer_instance

/-- `DirectPath`: the list of ratchet nodes along a sender's direct path. -/
structure DirectPath where
  suite : Nat
  nodes : List RatchetNode
  deriving DecidableEq, Repr

/-- `operator==(DirectPath, DirectPath)`: compares `nodes` only. -/
def directPathEq (l r : DirectPath) : Bool := l.nodes == r.nodes

/-- `operator<<(ostream, DirectPath)`: `out << nodes`. -/
def encDirectPath (p : DirectPath) : bytes := encVec 2 encRatchetNode p.nodes

/-- `operator>>(istream, DirectPath)`: `in >> nodes`, threading the suite. -/
def decDirectPath (suite : Nat) : Dec DirectPath := fun b => do
  let (ns, rest) ← decVec 2 (decRatchetNode suite) b
  .ok ({ suite := suite, nodes := ns }, rest)

def DirectPath.WF (s : Nat) (p : DirectPath) : Prop :=
  p.suite = s ∧ (∀ n ∈ p.nodes, n.WF s) ∧
    (encElems encRatchetNode p.nodes).length < 256 ^ 2

instance (s : Nat) (p : DirectPath) : Decidable (p.WF s) := by
  unfold DirectPath.WF; infer_instance

/-!
## ClientInitKey (`src/messages.cpp` lines 66–190)
-/

/-- `ClientInitKey`: a signed advertisement of supported versions, cipher
suites and one initial HPKE public key per suite.  The `_private_keys` map is
process-local state and never serialized; it plays no role in the claims and
is omitted. -/
structure ClientInitKey where
  client_init_key_id : bytes
  supported_versions : List Nat
  cipher_suites : List Nat
  init_keys : List bytes
  credential : Credential
  signature : bytes
  deriving DecidableEq, Repr

/-- `ClientInitKey::to_be_signed`:
`out << cipher_suites << init_keys << credential`. -/
def ClientInitKey.to_be_signed (k : ClientInitKey) : bytes :=
  encVec 2 (toBytesBE 2) k.cipher_suites ++ encVec 2 (encVar 2) k.init_keys ++
    encCredential k.credential

/-- `ClientInitKey::sign(credential_in)`: fails with `InvalidParameterError`
when the credential has no private key or when `cipher_suites` and
`init_keys` have different lengths; otherwise installs the credential and a
signature over `to_be_signed` and returns the updated object. -/
def ClientInitKey.sign (k : ClientInitKey) (credential_in : Credential) :
    Except Err ClientInitKey :=
  if credential_in.privKey.isNone then .error .invalidParameter
  else
    (optValue credential_in.privKey) >>= fun identity_priv =>
    if k.cipher_suites.length ≠ k.init_keys.length then .error .invalidParameter
    else
      let k' := { k with credential := credential_in }
      .ok { k' with signature := sigSign identity_priv k'.to_be_signed }

/-- `ClientInitKey::verify`: verify the stored signature over `to_be_signed`
under the credential's public key. -/
def ClientInitKey.verify (k : ClientInitKey) : Bool :=
  sigVerify k.credential.pubKey k.to_be_signed k.signature

/-- `operator==(ClientInitKey, ClientInitKey)` as written in the source: in
spite of the comment above it, it compares the signature byte strings in
addition to `cipher_suites`, `init_keys` and `credential`. -/
def clientInitKeyEq (l r : ClientInitKey) : Bool :=
  l.cipher_suites == r.cipher_suites && l.init_keys == r.init_keys &&
    credEq l.credential r.credential && l.signature == r.signature

/-- `operator<<(ostream, ClientInitKey)`. -/
def encClientInitKey (k : ClientInitKey) : bytes :=
  encVar 1 k.client_init_key_id ++ encVec 1 (toBytesBE 1) k.supported_versions ++
    encVec 2 (toBytesBE 2) k.cipher_suites ++ encVec 2 (encVar 2) k.init_keys ++
    encCredential k.credential ++ encVar 2 k.signature

/-- `operator>>(istream, ClientInitKey)`. -/
def decClientInitKey : Dec ClientInitKey := fun b => do
  let (kid, b) ← decVar 1 b
  let (vers, b) ← decVec 1 (decUint 1) b
  let (suites, b) ← decVec 2 (decUint 2) b
  let (keys, b) ← decVec 2 (decVar 2) b
  let (cred, b) ← decCredential b
  let (sig, rest) ← decVar 2 b
  .ok ({ client_init_key_id := kid, supported_versions := vers,
         cipher_suites := suites, init_keys := keys, credential := cred,
         signature := sig }, rest)

def ClientInitKey.WF (k : ClientInitKey) : Prop :=
  k.client_init_key_id.length < 256 ∧
  (∀ v ∈ k.supported_versions, v < 256) ∧
  (encElems (toBytesBE 1) k.supported_versions).length < 256 ∧
  (∀ s ∈ k.cipher_suites, s < 256 ^ 2) ∧
  (encElems (toBytesBE 2) k.cipher_suites).length < 256 ^ 2 ∧
  (∀ ik ∈ k.init_keys, ik.length < 256 ^ 2) ∧
  (encElems (encVar 2) k.init_keys).length < 256 ^ 2 ∧
  k.credential.WF ∧
  k.signature.length < 256 ^ 2

instance (k : ClientInitKey) : Decidable k.WF := by
  unfold ClientInitKey.WF; infer_instance

/-- Drop the credential's private key, as serialization does. -/
def ClientInitKey.scrub (k : ClientInitKey) : ClientInitKey :=
  { k with credential := k.credential.scrub }

/-!
## Handshake operations (`src/messages.cpp` lines 302–502)

`GroupOperationType` is a `uint8` enumeration; its numeric values are declared
in `messages.h`, which is outside `src/`.  The values used here
(`none = 0`, `add = 1`, `update = 2`, `remove = 3`) are modelled; no claim
depends on the particular numbers, only on the add/update/remove tags being
three distinct values and on every other octet being an unknown tag. -/

def GOTnone : Nat := 0

def GOTadd : Nat := 1

def GOTupdate : Nat := 2

def GOTremove : Nat := 3

/-- `Add{ index, init_key, welcome_info_hash }`. -/
structure Add where
  index : Nat
  init_key : ClientInitKey
  welcome_info_hash : bytes
  deriving DecidableEq, Repr

/-- `operator==(Add, Add)`: compares `index`, `init_key` (via the
`ClientInitKey` comparison) and `welcome_info_hash`. -/
def addEq (l r : Add) : Bool :=
  l.index == r.index && clientInitKeyEq l.init_key r.init_key &&
    l.welcome_info_hash == r.welcome_info_hash

/-- `operator<<(ostream, Add)`: `out << index << init_key <<
welcome_info_hash`. -/
def encAdd (a : Add) : bytes :=
  toBytesBE 4 a.index ++ encClientInitKey a.init_key ++ encVar 1 a.welcome_info_hash

/-- `operator>>(istream, Add)`. -/
def decAdd : Dec Add := fun b => do
  let (idx, b) ← decUint 4 b
  let (ik, b) ← decClientInitKey b
  let (h, rest) ← decVar 1 b
  .ok ({ index := idx, init_key := ik, welcome_info_hash := h }, rest)

def Add.WF (a : Add) : Prop :=
  a.index < 256 ^ 4 ∧ a.init_key.WF ∧ a.welcome_info_hash.length < 256

instance (a : Add) : Decidable a.WF := by unfold Add.WF; infer_instance

def Add.scrub (a : Add) : Add := { a with init_key := a.init_key.scrub }

/-- `Update{ path }`. -/
structure Update where
  suite : Nat
  path : DirectPath
  deriving DecidableEq, Repr

/-- `operator==(Update, Update)`: compares `path` only. -/
def updateEq (l r : Update) : Bool := l.path == r.path

/-- `operator<<(ostream, Update)`: `out << path`. -/
def encUpdate (u : Update) : bytes := encDirectPath u.path

/-- `operator>>(istream, Update)`, threading the suite
(`obj.update = Update(obj._suite)` before decoding). -/
def decUpdate (suite : Nat) : Dec Update := fun b => do
  let (p, rest) ← decDirectPath suite b
  .ok ({ suite := suite, path := p }, rest)

def Update.WF (s : Nat) (u : Update) : Prop := u.suite = s ∧ u.path.WF s

instance (s : Nat) (u : Update) : Decidable (u.WF s) := by
  unfold Update.WF; infer_instance

/-- `Remove{ removed, path }`. -/
structure Remove where
  suite : Nat
  removed : Nat
  path : DirectPath
  deriving DecidableEq, Repr

/-- `operator==(Remove, Remove)`: compares `path` only (the `removed` index
is not compared in the source). -/
def removeEq (l r : Remove) : Bool := l.path == r.path

/-- `operator<<(ostream, Remove)`: `out << removed << path`. -/
def encRemove (x : Remove) : bytes := toBytesBE 4 x.removed ++ encDirectPath x.path

/-- `operator>>(istream, Remove)`, threading the suite. -/
def decRemove (suite : Nat) : Dec Remove := fun b => do
  let (idx, b) ← decUint 4 b
  let (p, rest) ← decDirectPath suite b
  .ok ({ suite := suite, removed := idx, path := p }, rest)

def Remove.WF (s : Nat) (x : Remove) : Prop :=
  x.suite = s ∧ x.removed < 256 ^ 4 ∧ x.path.WF s

instance (s : Nat) (x : Remove) : Decidable (x.WF s) := by
  unfold Remove.WF; infer_instance

/-- `GroupOperation`: a type octet plus one optional body per variant
(`GroupOperationType + optional<Add> + optional<Update> + optional<Remove>`). -/
structure GroupOperation where
  suite : Nat
  type : Nat
  add : Option Add
  update : Option Update
  remove : Option Remove
  deriving DecidableEq, Repr

/-- `GroupOperation::GroupOperation()`: type `none`, no body, dummy suite
(`DUMMY_CIPHERSUITE = P256_SHA256_AES128GCM`, modelled as suite `0`). -/
def GroupOperation.default : GroupOperation :=
  { suite := 0, type := GOTnone, add := none, update := none, remove := none }

/-- `GroupOperation::GroupOperation(const Add&)`. -/
def GroupOperation.ofAdd (a : Add) : GroupOperation :=
  { suite := 0, type := GOTadd, add := some a, update := none, remove := none }

/-- `GroupOperation::GroupOperation(const Update&)`. -/
def GroupOperation.ofUpdate (u : Update) : GroupOperation :=
  { suite := u.suite, type := GOTupdate, add := none, update := some u, remove := none }

/-- `GroupOperation::GroupOperation(const Remove&)`. -/
def GroupOperation.ofRemove (x : Remove) : GroupOperation :=
  { suite := x.suite, type := GOTremove, add := none, update := none, remove := some x }

/-- The disjunction in `operator==(GroupOperation, GroupOperation)`,
evaluated left to right with C++ short-circuiting; `value()` on an absent
optional raises `std::bad_optional_access`. -/
def groupOperationBodyEq (l r : GroupOperation) : Except Err Bool := do
  let c1 ← if l.type = GOTadd then do
      let la ← optValue l.add
      let ra ← optValue r.add
      pure (addEq la ra)
    else pure false
  if c1 then pure true else do
    let c2 ← if l.type = GOTupdate then do
        let lu ← optValue l.update
        let ru ← optValue r.update
        pure (updateEq lu ru)
      else pure false
    if c2 then pure true else
      if l.type = GOTremove then do
        let lx ← optValue l.remove
        let rx ← optValue r.remove
        pure (removeEq lx rx)
      else pure false

/-- `operator==(GroupOperation, GroupOperation)`: requires equal types AND
one of the three typed body comparisons to succeed; the type equality is
evaluated first, so the body disjunction is only reached when the types
agree. -/
def groupOperationEq (l r : GroupOperation) : Except Err Bool :=
  if l.type = r.type then groupOperationBodyEq l r else .ok false

/-- `operator<<(ostream, GroupOperation)`: the type octet then the body of
the matching variant; an unknown type raises `InvalidParameterError`, and
`value()` on an absent body raises `std::bad_optional_access`. -/
def encGroupOperation (g : GroupOperation) : Except Err bytes := do
  if g.type = GOTadd then do
    let a ← optValue g.add
    pure (toBytesBE 1 g.type ++ encAdd a)
  else if g.type = GOTupdate then do
    let u ← optValue g.update
    pure (toBytesBE 1 g.type ++ encUpdate u)
  else if g.type = GOTremove then do
    let x ← optValue g.remove
    pure (toBytesBE 1 g.type ++ encRemove x)
  else .error .invalidParameter

/-- `operator>>(istream, GroupOperation)`: read the type octet, then decode
the matching body into a fresh variant (threading `obj._suite` into the
`Update`/`Remove` constructors); an unknown type raises
`InvalidParameterError`. -/
def decGroupOperation (suite : Nat) : Dec GroupOperation := fun b => do
  let (t, b) ← decUint 1 b
  if t = GOTadd then do
    let (a, rest) ← decAdd b
    .ok ({ suite := suite, type := t, add := some a, update := none, remove := none }, rest)
  else if t = GOTupdate then do
    let (u, rest) ← decUpdate suite b
    .ok ({ suite := suite, type := t, add := none, update := some u, remove := none }, rest)
  else if t = GOTremove then do
    let (x, rest) ← decRemove suite b
    .ok ({ suite := suite, type := t, add := none, update := none, remove := some x }, rest)
  else .error .invalidParameter

/-- Well-formedness of a `GroupOperation` relative to the decoding suite
`s`: the type octet names a populated variant, the body fits its wire
format, and every cached cipher-suite field agrees with `s` (as holds for
any operation built and decoded within one group). -/
def GroupOperation.WF (s : Nat) (g : GroupOperation) : Prop :=
  g.suite = s ∧
  ((g.type = GOTadd ∧ (∃ a, g.add = some a ∧ a.WF) ∧ g.update = none ∧ g.remove = none) ∨
   (g.type = GOTupdate ∧ g.add = none ∧ (∃ u, g.update = some u ∧ u.WF s) ∧ g.remove = none) ∨
   (g.type = GOTremove ∧ g.add = none ∧ g.update = none ∧ (∃ x, g.remove = some x ∧ x.WF s)))

def GroupOperation.scrub (g : GroupOperation) : GroupOperation :=
  { g with add := g.add.map Add.scrub }

instance (s : Nat) (g : GroupOperation) : Decidable (g.WF s) := by
  unfold GroupOperation.WF; infer_instance

/-- The populated variants: the type octet is one of add/update/remove and
the matching optional body is present (as the three body constructors
guarantee). -/
def GroupOperation.populated (g : GroupOperation) : Prop :=
  (g.type = GOTadd ∧ g.add.isSome) ∨ (g.type = GOTupdate ∧ g.update.isSome) ∨
    (g.type = GOTremove ∧ g.remove.isSome)

instance (g : GroupOperation) : Decidable g.populated := by
  unfold GroupOperation.populated; infer_instance

/-!
## MLSPlaintext (`src/messages.cpp` lines 504–718)

`ContentType` is a `uint8` enumeration declared in `messages.h` (outside
`src/`); the values used here (`handshake = 1`, `application = 2`) are
modelled, and no claim depends on the particular numbers. -/

def CThandshake : Nat := 1

def CTapplication : Nat := 2

/-- `MLSPlaintext`: an unencrypted handshake or application message. -/
structure MLSPlaintext where
  suite : Nat
  group_id : bytes
  epoch : Nat
  sender : Nat
  content_type : Nat
  operation : Option GroupOperation
  application_data : bytes
  confirmation : bytes
  signature : bytes
  deriving DecidableEq, Repr

/-- The handshake constructor
`MLSPlaintext(group_id, epoch, sender, operation)`. -/
def MLSPlaintext.mkHandshake (group_id : bytes) (epoch sender : Nat)
    (operation : GroupOperation) : MLSPlaintext :=
  { suite := operation.suite, group_id := group_id, epoch := epoch,
    sender := sender, content_type := CThandshake, operation := some operation,
    application_data := [], confirmation := [], signature := [] }

/-- The application constructor
`MLSPlaintext(group_id, epoch, sender, application_data)`; `operation` is
left absent and the suite is `DUMMY_CIPHERSUITE` (modelled as `0`). -/
def MLSPlaintext.mkApplication (group_id : bytes) (epoch sender : Nat)
    (application_data : bytes) : MLSPlaintext :=
  { suite := 0, group_id := group_id, epoch := epoch, sender := sender,
    content_type := CTapplication, operation := none,
    application_data := application_data, confirmation := [], signature := [] }

/-- `MLSPlaintext::marshal_content(padding_size)`:
`content || signature || sig_len(uint16) || 0x01 || zero padding`, where
`content` is the marshalled operation (handshake) or `application_data`
(application); any other content type raises `InvalidParameterError`, and
`sig_len` is `signature.size()` narrowed to `uint16`. -/
def MLSPlaintext.marshal_content (pt : MLSPlaintext) (padding_size : Nat) :
    Except Err bytes := do
  let content ← if pt.content_type = CThandshake then do
      let op ← optValue pt.operation
      encGroupOperation op
    else if pt.content_type = CTapplication then pure pt.application_data
    else .error .invalidParameter
  let sig_len := pt.signature.length % 256 ^ 2
  pure (content ++ pt.signature ++ toBytesBE 2 sig_len ++ [1] ++
    List.replicate padding_size 0)

/-- The tail scan of `MLSPlaintext::unmarshal_content`:
`int cut = marshaled.size() - 1; for (; marshaled[cut] == 0 && cut >= 0; cut -= 1)`.
The element access is evaluated before the bounds check, so when the index
reaches `-1` (empty or all-zero input) the loop reads `marshaled[-1]`: an
out-of-bounds access, surfaced as `outOfBoundsRead`.  The argument is
`cut + 1`, so `0` stands for `cut = -1`. -/
def scanLoop (b : bytes) : Nat → Except Err Nat
  | 0 => .error .outOfBoundsRead
  | r + 1 =>
    if hr : r < b.length then
      if b.get ⟨r, hr⟩ = 0 then scanLoop b r else .ok r
    else .error .outOfBoundsRead

/-- The fields `MLSPlaintext::unmarshal_content` assigns: the decoded
operation (handshake), the recovered application data (application), and the
signature. -/
structure UnmarshaledContent where
  operation : Option GroupOperation
  application_data : Option bytes
  signature : bytes
  deriving DecidableEq, Repr

/-- `MLSPlaintext::unmarshal_content(suite, marshaled)`, as a function of the
receiving object's `content_type`: scan the tail for the `0x01` marker
(`ProtocolError` if the first non-zero byte from the tail is not `0x01`),
read the two preceding octets as `sig_len` (an out-of-bounds access when the
marker sits at index `< 2`), reject `sig_len > cut` with `ProtocolError`,
split off signature and content, and decode the content according to
`content_type`. -/
def MLSPlaintext.unmarshal_content (content_type suite : Nat) (marshaled : bytes) :
    Except Err UnmarshaledContent := do
  let cut ← scanLoop marshaled marshaled.length
  if marshaled.getD cut 0 ≠ 1 then .error .protocolError
  else if cut < 2 then .error .outOfBoundsRead
  else
    let sig_len := fromBytesBE [marshaled.getD (cut - 2) 0, marshaled.getD (cut - 1) 0]
    let cut2 := cut - 2
    if sig_len > cut2 then .error .protocolError
    else
      let signature := (marshaled.take cut2).drop (cut2 - sig_len)
      let content := marshaled.take (cut2 - sig_len)
      if content_type = CThandshake then do
        let (op, _) ← decGroupOperation suite content
        pure { operation := some op, application_data := none, signature := signature }
      else if content_type = CTapplication then
        pure { operation := none, application_data := some content, signature := signature }
      else .error .invalidParameter

/-- `operator==(MLSPlaintext, MLSPlaintext)` as written in the source: the
`operation` conjunct guards `operation.value()` behind
`content_type == handshake`, but the `application_data` conjunct evaluates
`lhs.operation.value() == rhs.operation.value()` (not the application data)
behind `content_type == application`; for an application message, whose
`operation` is absent, `value()` raises `std::bad_optional_access`. -/
def mlsPlaintextEq (l r : MLSPlaintext) : Except Err Bool := do
  let group_id := l.group_id == r.group_id
  let epoch := l.epoch == r.epoch
  let sender := l.sender == r.sender
  let content_type := l.content_type == r.content_type
  let operation ← if l.content_type = CThandshake then do
      let lo ← optValue l.operation
      let ro ← optValue r.operation
      groupOperationEq lo ro
    else pure false
  let application_data ← if l.content_type = CTapplication then do
      let lo ← optValue l.operation
      let ro ← optValue r.operation
      groupOperationEq lo ro
    else pure false
  let signature := l.signature == r.signature
  pure (group_id && epoch && sender && content_type &&
    (operation || application_data) && signature)

/-!
## WelcomeInfo and Welcome (`src/messages.cpp` lines 192–300)

`RatchetTree` and its codec live outside `src/`; the wire form is modelled
from the spec (§4.4): the tree is encoded as a length-prefixed sequence of
optional node records, blanks serialize as absent, and two trees compare
equal exactly when their serialized node records (public keys and blanks)
agree position by position.
-/

/-- `mls10Version = 0xFF` (`include/common.h`). -/
def mls10Version : Nat := 255

/-- Modelled from the spec: a serialized ratchet tree node record (the
public key of an occupied node). -/
structure WireNode where
  public_key : bytes
  deriving DecidableEq, Repr

/-- Modelled from the spec: a ratchet tree as serialized — a cipher suite
and the optional node records (blanks are `none`). -/
structure RatchetTreeW where
  suite : Nat
  nodes : List (Option WireNode)
  deriving DecidableEq, Repr

/-- Modelled from the spec: tree equality compares public keys and blanks at
every node (the hashes are derived from the same data). -/
def ratchetTreeEq (l r : RatchetTreeW) : Bool := l.nodes == r.nodes

/-- Modelled from the spec: node record encoding. -/
def encWireNode (n : WireNode) : bytes := encVar 2 n.public_key

/-- Modelled from the spec: node record decoding. -/
def decWireNode : Dec WireNode := fun b => do
  let (pk, rest) ← decVar 2 b
  .ok ({ public_key := pk }, rest)

/-- Modelled from the spec: tree encoding — a length-prefixed sequence of
optional node records. -/
def encRatchetTree (t : RatchetTreeW) : bytes :=
  encVec 4 (encOpt encWireNode) t.nodes

/-- Modelled from the spec: tree decoding, threading the cipher suite. -/
def decRatchetTree (suite : Nat) : Dec RatchetTreeW := fun b => do
  let (ns, rest) ← decVec 4 (decOpt decWireNode) b
  .ok ({ suite := suite, nodes := ns }, rest)

def RatchetTreeW.WF (t : RatchetTreeW) : Prop :=
  (∀ nd ∈ t.nodes, ∀ w ∈ nd, w.public_key.length < 256 ^ 2) ∧
    (encElems (encOpt encWireNode) t.nodes).length < 256 ^ 4

instance (t : RatchetTreeW) : Decidable t.WF := by
  unfold RatchetTreeW.WF; infer_instance

/-- `WelcomeInfo`: the group state snapshot delivered to a joiner. -/
structure WelcomeInfo where
  suite : Nat
  version : Nat
  group_id : bytes
  epoch : Nat
  tree : RatchetTreeW
  interim_transcript_hash : bytes
  init_secret : bytes
  deriving DecidableEq, Repr

/-- `operator==(WelcomeInfo, WelcomeInfo)`: compares `version`, `group_id`,
`epoch`, `tree`, `interim_transcript_hash` and `init_secret` (not the cached
cipher suite). -/
def welcomeInfoEq (l r : WelcomeInfo) : Bool :=
  l.version == r.version && l.group_id == r.group_id && l.epoch == r.epoch &&
    ratchetTreeEq l.tree r.tree &&
    l.interim_transcript_hash == r.interim_transcript_hash &&
    l.init_secret == r.init_secret

/-- `operator<<(ostream, WelcomeInfo)`: `out << version << group_id << epoch
<< tree << interim_transcript_hash << init_secret` (`group_id` is
`opaque<2>`, the two hashes are `opaque<1>`). -/
def encWelcomeInfo (w : WelcomeInfo) : bytes :=
  toBytesBE 1 w.version ++ encVar 2 w.group_id ++ toBytesBE 4 w.epoch ++
    encRatchetTree w.tree ++ encVar 1 w.interim_transcript_hash ++
    encVar 1 w.init_secret

/-- `operator>>(istream, WelcomeInfo)`: reads the leading fields, resets the
tree to `RatchetTree(cipher_suite())` so that it decodes under the correct
suite, then reads the remaining fields. -/
def decWelcomeInfo (suite : Nat) : Dec WelcomeInfo := fun b => do
  let (v, b) ← decUint 1 b
  let (gid, b) ← decVar 2 b
  let (ep, b) ← decUint 4 b
  let (t, b) ← decRatchetTree suite b
  let (ith, b) ← decVar 1 b
  let (ini, rest) ← decVar 1 b
  .ok ({ suite := suite, version := v, group_id := gid, epoch := ep,
         tree := t, interim_transcript_hash := ith, init_secret := ini }, rest)

def WelcomeInfo.WF (w : WelcomeInfo) : Prop :=
  w.version < 256 ∧ w.group_id.length < 256 ^ 2 ∧ w.epoch < 256 ^ 4 ∧
    w.tree.WF ∧ w.interim_transcript_hash.length < 256 ∧
    w.init_secret.length < 256

instance (w : WelcomeInfo) : Decidable w.WF := by
  unfold WelcomeInfo.WF; infer_instance

/-- `DHPrivateKey` (crypto facade): a cipher-suite-aware private key. -/
structure DHPrivateKey where
  suite : Nat
  secret : bytes
  deriving DecidableEq, Repr

/-- `tls::marshal` for `WelcomeInfo`. -/
def marshalWelcomeInfo (w : WelcomeInfo) : bytes := encWelcomeInfo w

/-- `tls::unmarshal` for `WelcomeInfo`: decode from the front of the buffer
(the mlspp unmarshal does not reject trailing bytes). -/
def unmarshalWelcomeInfo (suite : Nat) (b : bytes) : Except Err WelcomeInfo := do
  let (w, _) ← decWelcomeInfo suite b
  .ok w

/-- `Welcome`: a `WelcomeInfo` HPKE-encrypted to a joiner's init key. -/
structure Welcome where
  client_init_key_id : bytes
  cipher_suite : Nat
  encrypted_welcome_info : HPKECiphertext
  deriving DecidableEq, Repr

/-- `Welcome::Welcome(id, pub, info)`:
`encrypted_welcome_info = pub.encrypt(tls::marshal(info))`, with the cipher
suite taken from the public key. -/
def Welcome.create (id : bytes) (pub : DHPublicKey) (info : WelcomeInfo) : Welcome :=
  { client_init_key_id := id, cipher_suite := pub.suite,
    encrypted_welcome_info := hpkeSeal pub.suite pub.data (marshalWelcomeInfo info) }

/-- `Welcome::decrypt(priv)`: HPKE-decrypt, then unmarshal into a
`WelcomeInfo` constructed with `priv.cipher_suite()`. -/
def Welcome.decrypt (w : Welcome) (priv : DHPrivateKey) : Except Err WelcomeInfo := do
  let welcome_info_bytes ← hpkeOpen priv.secret w.encrypted_welcome_info
  unmarshalWelcomeInfo priv.suite welcome_info_bytes

/-!
## Epoch secret derivation (spec §4.5)

`State::derive_epoch_secrets` lives outside `src/`; it is modelled from the
spec as the HKDF cascade over the four inputs.  The HKDF primitives are the
crypto facade's, modelled as deterministic byte functions.
-/

/-- Modelled from the spec: `HKDF-Extract(salt, ikm)` as a deterministic
function of its two inputs. -/
def hkdfExtract (salt ikm : bytes) : bytes := 3 :: (encVar 4 salt ++ encVar 4 ikm)

/-- Modelled from the spec: `Derive-Secret(secret, label, context)` as a
deterministic function of its three inputs. -/
def deriveSecret (secret label context : bytes) : bytes :=
  4 :: (encVar 4 secret ++ encVar 4 label ++ encVar 4 context)

/-- The ASCII label `"app"`. -/
def lblApp : bytes := [97, 112, 112]

/-- The ASCII label `"confirm"`. -/
def lblConfirm : bytes := [99, 111, 110, 102, 105, 114, 109]

/-- The ASCII label `"init"`. -/
def lblInit : bytes := [105, 110, 105, 116]

/-- The four secrets an epoch transition derives. -/
structure EpochSecrets where
  epoch_secret : bytes
  application_secret : bytes
  confirmation_key : bytes
  init_secret : bytes
  deriving DecidableEq, Repr

/-- Modelled from the spec: `State::derive_epoch_secrets(suite, init_secret,
update_secret, group_context)`:
`epoch_secret = HKDF-Extract(prev_init_secret, update_secret)`, then
`application_secret`, `confirmation_key` and `init_secret` by
`Derive-Secret` with labels `"app"`, `"confirm"`, `"init"` over the encoded
group context. -/
def derive_epoch_secrets (suite : Nat) (prev_init_secret update_secret
    group_context : bytes) : EpochSecrets :=
  let epoch_secret := hkdfExtract prev_init_secret update_secret
  { epoch_secret := epoch_secret,
    application_secret := deriveSecret epoch_secret lblApp group_context,
    confirmation_key := deriveSecret epoch_secret lblConfirm group_context,
    init_secret := deriveSecret epoch_secret lblInit group_context }

/-!
## Ratchet tree path encryption (spec §4.4)

The ratchet tree implementation (`ratchet_tree.cpp`) is outside `src/`; the
definitions below are modelled from the spec.  A member's copy of the tree is
a binary tree of optional nodes (blank = `none`); a leaf is addressed by the
list of branch directions from the root (`false` = left, `true` = right), so
`direct_path` and `copath` are the nodes, resp. siblings, along that list.
Path secrets chain upward from the leaf secret by
`PathSecret[i+1] = HKDF-Expand-Label(PathSecret[i], "path", "", Nh)`; each
direct-path node's secret is HPKE-encrypted to every public key in the
resolution of its copath sibling; `decrypt` recovers the secret at the
highest node of the sender's direct path whose copath child contains the
receiver, then derives the remaining path secrets upward.
-/

/-- A ratchet tree node: the public key, and the private key when held by
this member. -/
structure RNode where
  pub : bytes
  priv : Option bytes
  deriving DecidableEq, Repr

/-- Modelled from the spec: one member's copy of the ratchet tree. -/
inductive RTree where
  | leaf : Option RNode → RTree
  | parent : Option RNode → RTree → RTree → RTree
  deriving DecidableEq, Repr

/-- Modelled from the spec: resolution — an occupied node resolves to
itself, a blank leaf to nothing, a blank parent to the concatenation of its
children's resolutions. -/
def resolution : RTree → List RNode
  | .leaf (some nd) => [nd]
  | .leaf none => []
  | .parent (some nd) _ _ => [nd]
  | .parent none l r => resolution l ++ resolution r

/-- Modelled from the spec:
`PathSecret[i+1] = HKDF-Expand-Label(PathSecret[i], "path", "", Nh)` as a
deterministic injective byte function. -/
def derivePathSecret (s : bytes) : bytes := 5 :: s

/-- Modelled from the spec: the private node key derived from a path secret
via `Derive-Key-Pair(HKDF-Expand-Label(ps, "node", "", Nh))`; the public
part is `dhPub` of it. -/
def nodePriv (ps : bytes) : bytes := 6 :: ps

/-- One node record of a `DirectPath` in the tree model: the new public key
at the node and the HPKE encryptions of the node's path secret, one per
public key in the resolution of its copath sibling. -/
structure PathNode where
  pub : bytes
  cts : List HPKECiphertext
  deriving DecidableEq, Repr

/-- Modelled from the spec: `RatchetTree::encrypt(leaf, leaf_secret)` —
derive the chain of path secrets along the sender's direct path (top of the
returned list = root) and encrypt each node's secret to the resolution of
its copath sibling; returns the direct path records and the root path
secret (the epoch's update secret). -/
def encryptPath (suite : Nat) : RTree → List Bool → bytes →
    Option (List PathNode × bytes)
  | .leaf _, [], s => some ([], s)
  | .leaf _, _ :: _, _ => none
  | .parent _ _ _, [], _ => none
  | .parent _ l r, d :: ds, s =>
    match encryptPath suite (if d then r else l) ds s with
    | none => none
    | some (recs, s0) =>
      let ps := derivePathSecret s0
      let pn : PathNode :=
        { pub := dhPub (nodePriv ps),
          cts := (resolution (if d then l else r)).map
            (fun v => hpkeSeal suite v.pub ps) }
      some (pn :: recs, ps)

/-- Modelled from the spec: `RatchetTree::set_path(leaf, leaf_secret)` —
the same path-secret chain as `encryptPath`, returning the final root path
secret as the update secret. -/
def setPathSecret : RTree → List Bool → bytes → Option bytes
  | .leaf _, [], s => some s
  | .leaf _, _ :: _, _ => none
  | .parent _ _ _, [], _ => none
  | .parent _ l r, d :: ds, s =>
    match setPathSecret (if d then r else l) ds s with
    | none => none
    | some s0 => some (derivePathSecret s0)

/-- Modelled from the spec: among the resolution of the copath sibling,
find the node whose private key this member holds, together with the HPKE
ciphertext at the same position. -/
def findPriv : List RNode → List HPKECiphertext → Option (bytes × HPKECiphertext)
  | [], _ => none
  | _ :: _, [] => none
  | nd :: nds, ct :: cts =>
    match nd.priv with
    | some p => some (p, ct)
    | none => findPriv nds cts

/-- Modelled from the spec: `RatchetTree::decrypt(sender, path)` from the
receiver's copy — walk down from the root along the sender's direct path;
where the receiver's path diverges, the current node is the lowest node of
the sender's direct path above the receiver: decrypt its path secret from
the ciphertext addressed to the receiver's node in the copath resolution;
above the divergence, derive each path secret from the one below.  Returns
the root path secret (`DecryptedPath.root_path_secret`). -/
def decryptPath : RTree → List Bool → List Bool → List PathNode → Option bytes
  | .parent _ l r, d :: ds, e :: es, pn :: pns =>
    if d = e then
      match decryptPath (if d then r else l) ds es pns with
      | none => none
      | some s0 => some (derivePathSecret s0)
    else
      match findPriv (resolution (if e then r else l)) pn.cts with
      | none => none
      | some (p, ct) =>
        match hpkeOpen p ct with
        | .ok ps => some ps
        | .error _ => none
  | _, _, _, _ => none

/-- No private key in this subtree is held (the spec's invariant for the
parts of a member's copy outside its direct path). -/
def offPath : RTree → Prop
  | .leaf none => True
  | .leaf (some nd) => nd.priv = none
  | .parent nd l r => (∀ x ∈ nd, x.priv = none) ∧ offPath l ∧ offPath r

/-- The spec's invariant for a member at the addressed leaf: every occupied
node on the root-to-leaf path holds a private key whose public pair is the
node's public key, the leaf itself is occupied, and no private key is held
off the path. -/
def onPath : RTree → List Bool → Prop
  | .leaf none, _ => False
  | .leaf (some nd), [] => ∃ p, nd.priv = some p ∧ nd.pub = dhPub p
  | .leaf (some _), _ :: _ => False
  | .parent _ _ _, [] => False
  | .parent nd l r, d :: ds =>
    (∀ x ∈ nd, ∃ p, x.priv = some p ∧ x.pub = dhPub p) ∧
      onPath (if d then r else l) ds ∧ offPath (if d then l else r)

/-!
## Concrete values used by witnesses and counterexamples
-/

/-- A credential whose owner holds the matching private key `[3]`. -/
def credW : Credential :=
  { identity := [9], pubKey := sigPub [3], privKey := some [3] }

/-- A small well-formed `ClientInitKey` body (no signature yet). -/
def cikW : ClientInitKey :=
  { client_init_key_id := [], supported_versions := [255],
    cipher_suites := [0], init_keys := [[4]], credential := credW,
    signature := [] }

/-- `cikW` with the credential installed, before signing. -/
def cikWcred : ClientInitKey := { cikW with credential := credW }

/-- `cikW` with the signature the embedded `ClientInitKey::sign` computes. -/
def cikWsigned : ClientInitKey :=
  { cikWcred with signature := sigSign [3] cikWcred.to_be_signed }

/-- Two copies of a `ClientInitKey` that differ only in the leading
 (randomness) octet of the signature; both signatures verify. -/
def cikSigA : ClientInitKey :=
  { cikW with signature := 0 :: (sigPub [3] ++ cikW.to_be_signed) }

def cikSigB : ClientInitKey :=
  { cikW with signature := 1 :: (sigPub [3] ++ cikW.to_be_signed) }

/-- A small well-formed `Update` operation (empty direct path). -/
def updW : Update := { suite := 0, path := { suite := 0, nodes := [] } }

/-- An application-content `MLSPlaintext` (its `operation` is absent). -/
def ptAppW : MLSPlaintext := MLSPlaintext.mkApplication [7] 1 0 [42, 0]

/-- A handshake-content `MLSPlaintext` carrying `updW`. -/
def ptHsW : MLSPlaintext :=
  MLSPlaintext.mkHandshake [7] 1 0 (GroupOperation.ofUpdate updW)

/-- A two-leaf tree as the receiver at the left leaf holds it: the left leaf
key pair is derived from secret `[10]`, the right (sender) leaf is public
only. -/
def treeW : RTree :=
  .parent none (.leaf (some { pub := dhPub [10], priv := some [10] }))
    (.leaf (some { pub := dhPub [11], priv := none }))

/-- The direct-path record `encryptPath 0 treeW [true] [9]` produces. -/
def pathNodeW : PathNode :=
  { pub := dhPub (nodePriv (derivePathSecret [9])),
    cts := [hpkeSeal 0 (dhPub [10]) (derivePathSecret [9])] }

@[simp] theorem optValue_some {α : Type} (a : α) : optValue (some a) = .ok a := rfl

@[simp] theorem optValue_none {α : Type} : (optValue (none : Option α)) = .error .badOptionalAccess := rfl

@[simp] theorem toBytesBE_length (w n : Nat) : (toBytesBE w n).length = w := by
  induction w generalizing n with
  | zero => rfl
  | succ k ih => simp [toBytesBE, ih]

theorem fromBytesBE_append (a b : bytes) :
    fromBytesBE (a ++ b) = b.foldl (fun acc x => acc * 256 + x) (fromBytesBE a) := by
  simp [fromBytesBE, List.foldl_append]

theorem fromBytesBE_toBytesBE (w n : Nat) :
    fromBytesBE (toBytesBE w n) = n % 256 ^ w := by
  induction w generalizing n with
  | zero => simp [toBytesBE, fromBytesBE, Nat.mod_one]
  | succ k ih =>
    have h : fromBytesBE (toBytesBE k (n / 256) ++ [n % 256]) =
        fromBytesBE (toBytesBE k (n / 256)) * 256 + n % 256 := by
      simp [fromBytesBE_append, fromBytesBE]
    have hpow : 256 ^ (k + 1) = 256 ^ k * 256 := by ring
    calc fromBytesBE (toBytesBE (k + 1) n)
        = fromBytesBE (toBytesBE k (n / 256)) * 256 + n % 256 := h
      _ = (n / 256) % 256 ^ k * 256 + n % 256 := by rw [ih]
      _ = n % 256 ^ (k + 1) := by
          rw [hpow, show (256 : Nat) ^ k * 256 = 256 * 256 ^ k by ring, Nat.mod_mul]
          ring

theorem fromBytesBE_toBytesBE_of_lt {w n : Nat} (h : n < 256 ^ w) :
    fromBytesBE (toBytesBE w n) = n := by
  rw [fromBytesBE_toBytesBE, Nat.mod_eq_of_lt h]

theorem bytesWF_toBytesBE (w n : Nat) : bytesWF (toBytesBE w n) := by
  induction w generalizing n with
  | zero => intro x hx; simp [toBytesBE] at hx
  | succ k ih =>
    intro x hx
    simp only [toBytesBE, List.mem_append, List.mem_singleton] at hx
    rcases hx with hx | hx
    · exact ih _ _ hx
    · subst hx; exact Nat.mod_lt _ (by norm_num)

@[simp] theorem except_bind_ok {α β : Type} (a : α) (f : α → Except Err β) :
    (Except.ok a >>= f) = f a := rfl

@[simp] theorem except_pure {α : Type} (a : α) :
    (pure a : Except Err α) = Except.ok a := rfl

theorem decUint_encode (w n : Nat) (r : bytes) :
    decUint w (toBytesBE w n ++ r) = .ok (n % 256 ^ w, r) := by
  have hlen : (toBytesBE w n).length = w := toBytesBE_length w n
  simp [decUint, List.take_append_of_le_length, List.drop_append_of_le_length,
    hlen, fromBytesBE_toBytesBE,
    List.take_left' hlen, List.drop_left' hlen]

theorem decUint_encode_of_lt {w n : Nat} (h : n < 256 ^ w) (r : bytes) :
    decUint w (toBytesBE w n ++ r) = .ok (n, r) := by
  rw [decUint_encode, Nat.mod_eq_of_lt h]

theorem decVar_encode {hdr : Nat} {p : bytes} (h : p.length < 256 ^ hdr) (r : bytes) :
    decVar hdr (encVar hdr p ++ r) = .ok (p, r) := by
  simp only [decVar, encVar, List.append_assoc]
  rw [decUint_encode_of_lt h]
  simp only [Bind.bind, Except.bind]
  have hle : p.length ≤ (p ++ r).length := by simp
  rw [if_pos hle, List.take_left, List.drop_left]

theorem decElems_encElems {α : Type} {encE : α → bytes} {decE : Dec α} {P : α → Prop}
    (hgood : GoodEnc encE decE P) :
    ∀ (xs : List α) (fuel : Nat), (∀ x ∈ xs, P x) →
      (encElems encE xs).length ≤ fuel →
      decElems decE fuel (encElems encE xs) = .ok xs := by
  intro xs
  induction xs with
  | nil => intro fuel _ _; cases fuel <;> simp [encElems, decElems]
  | cons x xs ih =>
    intro fuel hP hlen
    have hx := hgood x (hP x (by simp))
    have henc : encElems encE (x :: xs) = encE x ++ encElems encE xs := by
      simp [encElems]
    rw [henc] at hlen ⊢
    obtain ⟨e, es, he⟩ : ∃ e es, encE x = e :: es := by
      cases hex : encE x with
      | nil => exfalso; have h2 := hx.2; rw [hex] at h2; simp at h2
      | cons e es => exact ⟨e, es, rfl⟩
    obtain ⟨f, hf⟩ : ∃ f, fuel = f + 1 := by
      cases fuel with
      | zero => rw [he] at hlen; simp at hlen
      | succ f => exact ⟨f, rfl⟩
    subst hf
    rw [he]
    show decElems decE (f + 1) (e :: (es ++ encElems encE xs)) = _
    rw [decElems]
    have hd : decE (e :: (es ++ encElems encE xs)) = .ok (x, encElems encE xs) := by
      have := (hx.1 (encElems encE xs))
      rw [he] at this
      simpa using this
    rw [hd]
    simp only [Bind.bind, Except.bind]
    rw [ih f (fun y hy => hP y (by simp [hy])) (by rw [he] at hlen; simp at hlen; omega)]

theorem decVec_encVec {α : Type} {hdr : Nat} {encE : α → bytes} {decE : Dec α} {P : α → Prop}
    (hgood : GoodEnc encE decE P) (xs : List α) (hxs : ∀ x ∈ xs, P x)
    (hlen : (encElems encE xs).length < 256 ^ hdr) (r : bytes) :
    decVec hdr decE (encVec hdr encE xs ++ r) = .ok (xs, r) := by
  simp only [decVec, encVec]
  rw [decVar_encode hlen]
  simp only [Bind.bind, Except.bind]
  rw [decElems_encElems hgood xs (encElems encE xs).length hxs (le_refl _)]

theorem decOpt_encOpt {α : Type} {encE : α → bytes} {decE : Dec α} {P : α → Prop}
    (hgood : GoodEnc encE decE P) (x : Option α) (hx : ∀ y ∈ x, P y) (r : bytes) :
    decOpt decE (encOpt encE x ++ r) = .ok (x, r) := by
  cases x with
  | none => simp [encOpt, decOpt]
  | some y =>
    have := (hgood y (hx y rfl)).1 r
    simp [encOpt, decOpt, this, Bind.bind, Except.bind]

theorem sigVerify_sigSign (priv m : bytes) :
    sigVerify (sigPub priv) m (sigSign priv m) = true := by
  simp [sigVerify, sigSign]

theorem hpkeOpen_hpkeSeal (suite : Nat) (priv m : bytes) :
    hpkeOpen priv (hpkeSeal suite (dhPub priv) m) = .ok m := by
  simp [hpkeOpen, hpkeSeal]

theorem decCredential_enc {c : Credential} (h : c.WF) (r : bytes) :
    decCredential (encCredential c ++ r) = .ok (c.scrub, r) := by
  simp only [decCredential, encCredential, List.append_assoc]
  rw [decVar_encode h.1]
  simp only [Bind.bind, Except.bind]
  rw [decVar_encode h.2]
  rfl

theorem credEq_scrub (c : Credential) : credEq c c.scrub = true := by
  simp [credEq, Credential.scrub]

theorem decDHPublicKey_enc {s : Nat} {k : DHPublicKey} (h : k.WF s) (r : bytes) :
    decDHPublicKey s (encDHPublicKey k ++ r) = .ok (k, r) := by
  obtain ⟨hs, hd⟩ := h
  simp only [decDHPublicKey, encDHPublicKey]
  rw [decVar_encode hd]
  simp only [Bind.bind, Except.bind]
  cases k
  simp_all

theorem decHPKECiphertext_enc {s : Nat} {ct : HPKECiphertext} (h : ct.WF s) (r : bytes) :
    decHPKECiphertext s (encHPKECiphertext ct ++ r) = .ok (ct, r) := by
  obtain ⟨hs, he, hc⟩ := h
  simp only [decHPKECiphertext, encHPKECiphertext, List.append_assoc]
  rw [decVar_encode he]
  simp only [Bind.bind, Except.bind]
  rw [decVar_encode hc]
  cases ct
  simp_all

theorem goodEnc_HPKECiphertext (s : Nat) :
    GoodEnc encHPKECiphertext (decHPKECiphertext s) (HPKECiphertext.WF s) := by
  intro ct h
  refine ⟨fun r => decHPKECiphertext_enc h r, ?_⟩
  simp [encHPKECiphertext, encVar]
  omega

theorem decRatchetNode_enc {s : Nat} {n : RatchetNode} (h : n.WF s) (r : bytes) :
    decRatchetNode s (encRatchetNode n ++ r) = .ok (n, r) := by
  obtain ⟨hs, hpk, hct, hlen⟩ := h
  simp only [decRatchetNode, encRatchetNode, List.append_assoc]
  rw [decDHPublicKey_enc hpk]
  simp only [Bind.bind, Except.bind]
  rw [decVec_encVec (goodEnc_HPKECiphertext s) _ hct hlen]
  cases n
  simp_all

theorem goodEnc_RatchetNode (s : Nat) :
    GoodEnc encRatchetNode (decRatchetNode s) (RatchetNode.WF s) := by
  intro n h
  refine ⟨fun r => decRatchetNode_enc h r, ?_⟩
  simp [encRatchetNode, encDHPublicKey, encVar]
  omega

theorem decDirectPath_enc {s : Nat} {p : DirectPath} (h : p.WF s) (r : bytes) :
    decDirectPath s (encDirectPath p ++ r) = .ok (p, r) := by
  obtain ⟨hs, hn, hlen⟩ := h
  simp only [decDirectPath, encDirectPath]
  rw [decVec_encVec (goodEnc_RatchetNode s) _ hn hlen]
  simp only [Bind.bind, Except.bind]
  cases p
  simp_all

theorem goodEnc_uint (w : Nat) :
    GoodEnc (toBytesBE w) (decUint w) (fun v => v < 256 ^ w ∧ 1 ≤ w) := by
  intro v hv
  refine ⟨fun r => decUint_encode_of_lt hv.1 r, ?_⟩
  simp [hv.2]

theorem goodEnc_var (hdr : Nat) (hh : 1 ≤ hdr) :
    GoodEnc (encVar hdr) (decVar hdr) (fun p => p.length < 256 ^ hdr) := by
  intro p hp
  refine ⟨fun r => decVar_encode hp r, ?_⟩
  simp [encVar]
  omega

theorem decClientInitKey_enc {k : ClientInitKey} (h : k.WF) (r : bytes) :
    decClientInitKey (encClientInitKey k ++ r) = .ok (k.scrub, r) := by
  obtain ⟨h1, h2, h3, h4, h5, h6, h7, h8, h9⟩ := h
  simp only [decClientInitKey, encClientInitKey, List.append_assoc]
  rw [decVar_encode h1]
  simp only [except_bind_ok]
  rw [decVec_encVec (goodEnc_uint 1) _ (fun v hv => ⟨by simpa using h2 v hv, le_refl 1⟩) (by simpa using h3)]
  simp only [except_bind_ok]
  rw [decVec_encVec (goodEnc_uint 2) _ (fun v hv => ⟨h4 v hv, by norm_num⟩) h5]
  simp only [except_bind_ok]
  rw [decVec_encVec (goodEnc_var 2 (by norm_num)) _ h6 h7]
  simp only [except_bind_ok]
  rw [decCredential_enc h8]
  simp only [except_bind_ok]
  rw [decVar_encode h9]
  rfl

theorem clientInitKeyEq_scrub (k : ClientInitKey) :
    clientInitKeyEq k k.scrub = true := by
  simp [clientInitKeyEq, ClientInitKey.scrub, credEq, Credential.scrub]

theorem decAdd_enc {a : Add} (h : a.WF) (r : bytes) :
    decAdd (encAdd a ++ r) = .ok (a.scrub, r) := by
  obtain ⟨h1, h2, h3⟩ := h
  simp only [decAdd, encAdd, List.append_assoc]
  rw [decUint_encode_of_lt h1]
  simp only [except_bind_ok]
  rw [decClientInitKey_enc h2]
  simp only [except_bind_ok]
  rw [decVar_encode h3]
  rfl

theorem addEq_scrub (a : Add) : addEq a a.scrub = true := by
  simp [addEq, Add.scrub, clientInitKeyEq_scrub]

theorem decUpdate_enc {s : Nat} {u : Update} (h : u.WF s) (r : bytes) :
    decUpdate s (encUpdate u ++ r) = .ok (u, r) := by
  obtain ⟨hs, hp⟩ := h
  simp only [decUpdate, encUpdate]
  rw [decDirectPath_enc hp]
  simp only [except_bind_ok]
  cases u
  simp_all

theorem decRemove_enc {s : Nat} {x : Remove} (h : x.WF s) (r : bytes) :
    decRemove s (encRemove x ++ r) = .ok (x, r) := by
  obtain ⟨hs, hi, hp⟩ := h
  simp only [decRemove, encRemove, List.append_assoc]
  rw [decUint_encode_of_lt hi]
  simp only [except_bind_ok]
  rw [decDirectPath_enc hp]
  simp only [except_bind_ok]
  cases x
  simp_all

theorem decGroupOperation_enc {s : Nat} {g : GroupOperation} (h : g.WF s) (r : bytes) :
    ∃ e, encGroupOperation g = .ok e ∧
      decGroupOperation s (e ++ r) = .ok (g.scrub, r) := by
  obtain ⟨gs, gt, ga, gu, gx⟩ := g
  obtain ⟨hs, hbody⟩ := h
  simp only at hs
  subst hs
  rcases hbody with ⟨ht, ⟨a, ha, haWF⟩, hu, hx⟩ | ⟨ht, ha, ⟨u, hu, huWF⟩, hx⟩ |
    ⟨ht, ha, hu, ⟨x, hx, hxWF⟩⟩ <;>
    simp only at ht ha hu hx <;> subst ht ha hu hx
  · refine ⟨toBytesBE 1 GOTadd ++ encAdd a, ?_, ?_⟩
    · simp [encGroupOperation, GOTadd]
    · simp only [decGroupOperation, List.append_assoc]
      rw [decUint_encode_of_lt (by norm_num [GOTadd])]
      simp only [except_bind_ok, if_pos rfl]
      rw [decAdd_enc haWF]
      simp [GroupOperation.scrub]
  · refine ⟨toBytesBE 1 GOTupdate ++ encUpdate u, ?_, ?_⟩
    · simp [encGroupOperation, GOTadd, GOTupdate]
    · simp only [decGroupOperation, List.append_assoc]
      rw [decUint_encode_of_lt (by norm_num [GOTupdate])]
      simp [GOTadd, GOTupdate, decUpdate_enc huWF, GroupOperation.scrub]
  · refine ⟨toBytesBE 1 GOTremove ++ encRemove x, ?_, ?_⟩
    · simp [encGroupOperation, GOTadd, GOTupdate, GOTremove]
    · simp only [decGroupOperation, List.append_assoc]
      rw [decUint_encode_of_lt (by norm_num [GOTremove])]
      simp [GOTadd, GOTupdate, GOTremove, decRemove_enc hxWF, GroupOperation.scrub]

theorem addEq_refl (a : Add) : addEq a a = true := by
  simp [addEq, clientInitKeyEq, credEq]

theorem updateEq_refl (u : Update) : updateEq u u = true := by simp [updateEq]

theorem removeEq_refl (x : Remove) : removeEq x x = true := by simp [removeEq]

theorem groupOperationEq_refl {g : GroupOperation} (h : g.populated) :
    groupOperationEq g g = .ok true := by
  rcases h with ⟨ht, ha⟩ | ⟨ht, hu⟩ | ⟨ht, hx⟩
  · obtain ⟨a, ha⟩ := Option.isSome_iff_exists.mp ha
    simp [groupOperationEq, groupOperationBodyEq, ht, ha, addEq_refl, GOTadd]
  · obtain ⟨u, hu⟩ := Option.isSome_iff_exists.mp hu
    simp [groupOperationEq, groupOperationBodyEq, ht, hu, updateEq_refl,
      GOTadd, GOTupdate]
  · obtain ⟨x, hx⟩ := Option.isSome_iff_exists.mp hx
    simp [groupOperationEq, groupOperationBodyEq, ht, hx, removeEq_refl,
      GOTadd, GOTupdate, GOTremove]

theorem groupOperationEq_scrub {g : GroupOperation} (h : g.populated) :
    groupOperationEq g g.scrub = .ok true := by
  rcases h with ⟨ht, ha⟩ | ⟨ht, hu⟩ | ⟨ht, hx⟩
  · obtain ⟨a, ha⟩ := Option.isSome_iff_exists.mp ha
    simp [groupOperationEq, groupOperationBodyEq, GroupOperation.scrub, ht, ha,
      addEq_scrub, GOTadd]
  · obtain ⟨u, hu⟩ := Option.isSome_iff_exists.mp hu
    simp [groupOperationEq, groupOperationBodyEq, GroupOperation.scrub, ht, hu,
      updateEq_refl, GOTadd, GOTupdate]
  · obtain ⟨x, hx⟩ := Option.isSome_iff_exists.mp hx
    simp [groupOperationEq, groupOperationBodyEq, GroupOperation.scrub, ht, hx,
      removeEq_refl, GOTadd, GOTupdate, GOTremove]

theorem populated_of_WF {s : Nat} {g : GroupOperation} (h : g.WF s) : g.populated := by
  obtain ⟨-, hbody⟩ := h
  rcases hbody with ⟨ht, ⟨a, ha, -⟩, -, -⟩ | ⟨ht, -, ⟨u, hu, -⟩, -⟩ | ⟨ht, -, -, ⟨x, hx, -⟩⟩
  · exact Or.inl ⟨ht, by simp [ha]⟩
  · exact Or.inr (Or.inl ⟨ht, by simp [hu]⟩)
  · exact Or.inr (Or.inr ⟨ht, by simp [hx]⟩)

/-!
## Framing round-trip lemmas
-/

theorem scanLoop_skip (b : bytes) (k : Nat) :
    ∀ n, k ≤ n → n ≤ b.length → (∀ i, k ≤ i → i < n → b.getD i 0 = 0) →
      scanLoop b n = scanLoop b k := by
  intro n
  induction n with
  | zero => intro hk _ _; interval_cases k; rfl
  | succ m ih =>
    intro hk hlen hz
    rcases Nat.eq_or_lt_of_le hk with he | hlt
    · rw [he]
    · have hm : m < b.length := by omega
      have hzm : b.get ⟨m, hm⟩ = 0 := by
        have := hz m (by omega) (by omega)
        rwa [List.getD_eq_getElem _ _ hm] at this
      rw [scanLoop, dif_pos hm, if_pos hzm]
      exact ih (by omega) (by omega) (fun i h1 h2 => hz i h1 (by omega))

theorem scanLoop_frame (xs : bytes) (v : Nat) (hv : v ≠ 0) (p : Nat) :
    scanLoop (xs ++ v :: List.replicate p 0) (xs ++ v :: List.replicate p 0).length =
      .ok xs.length := by
  set b := xs ++ v :: List.replicate p 0 with hb
  have hlen : b.length = xs.length + 1 + p := by simp [hb]; omega
  have hskip : scanLoop b b.length = scanLoop b (xs.length + 1) := by
    apply scanLoop_skip b (xs.length + 1) b.length (by omega) (le_refl _)
    intro i h1 h2
    rw [hb, List.getD_append_right _ _ _ _ (by omega)]
    have : i - xs.length = (i - xs.length - 1) + 1 := by omega
    rw [this]
    simp only [List.getD]
    rw [List.get?_cons_succ]
    have hi : i - xs.length - 1 < p := by omega
    simp [List.get?_eq_getElem?, hi]
  rw [hskip]
  have hx : xs.length < b.length := by omega
  have hgv : b.get ⟨xs.length, hx⟩ = v := by
    have : b.getD xs.length 0 = v := by
      rw [hb, List.getD_append_right _ _ _ _ (le_refl _)]
      simp
    rwa [List.getD_eq_getElem _ _ hx] at this
  rw [scanLoop, dif_pos hx, if_neg (by rw [hgv]; exact hv)]

theorem getD_frame_right (xs ys : bytes) (j : Nat) :
    (xs ++ ys).getD (xs.length + j) 0 = ys.getD j 0 := by
  rw [List.getD_append_right _ _ _ _ (by omega)]
  congr 1
  omega

/-- Splitting of the framed encoding produced by `marshal_content`: the tail
scan finds the marker, the two preceding octets decode to the signature
length, and the signature and content are recovered exactly. -/
theorem unmarshal_content_frame (ct s : Nat) (content sig : bytes)
    (hs : sig.length < 256 ^ 2) (p : Nat) :
    MLSPlaintext.unmarshal_content ct s
      (content ++ sig ++ toBytesBE 2 (sig.length % 256 ^ 2) ++ [1] ++
        List.replicate p 0) =
    (if ct = CThandshake then do
        let (op, _) ← decGroupOperation s content
        pure { operation := some op, application_data := none,
               signature := sig }
      else if ct = CTapplication then
        .ok { operation := none, application_data := some content,
              signature := sig }
      else .error .invalidParameter) := by
  have hmod : sig.length % 256 ^ 2 = sig.length := Nat.mod_eq_of_lt hs
  rw [hmod]
  set L := sig.length with hL
  set xs := content ++ sig ++ toBytesBE 2 L with hxs
  have hm : content ++ sig ++ toBytesBE 2 L ++ [1] ++ List.replicate p 0 =
      xs ++ 1 :: List.replicate p 0 := by simp [hxs]
  rw [hm]
  have hxlen : xs.length = content.length + L + 2 := by simp [hxs]; omega
  have henc2 : toBytesBE 2 L = [L / 256 % 256, L % 256] := by
    simp [toBytesBE]
  have hdiv : L / 256 % 256 = L / 256 := by
    have : L < 256 ^ 2 := hs
    omega
  have hmarker : (xs ++ 1 :: List.replicate p 0).getD xs.length 0 = 1 := by
    rw [List.getD_append_right _ _ _ _ (le_refl _)]
    simp
  have hsplit : xs ++ 1 :: List.replicate p 0 =
      (content ++ sig) ++ (toBytesBE 2 L ++ 1 :: List.replicate p 0) := by
    simp [hxs]
  have hcs : (content ++ sig).length = content.length + L := by simp
  have hidx2 : (xs ++ 1 :: List.replicate p 0).getD (xs.length - 2) 0 = L / 256 := by
    rw [hsplit, show xs.length - 2 = (content ++ sig).length + 0 by omega,
      getD_frame_right]
    simp [henc2, hdiv]
  have hidx1 : (xs ++ 1 :: List.replicate p 0).getD (xs.length - 1) 0 = L % 256 := by
    rw [hsplit, show xs.length - 1 = (content ++ sig).length + 1 by omega,
      getD_frame_right]
    simp [henc2]
  have hsig_len : fromBytesBE [L / 256, L % 256] = L := by
    simp [fromBytesBE]
    omega
  have htake2 : (xs ++ 1 :: List.replicate p 0).take (xs.length - 2) = content ++ sig := by
    rw [hsplit, show xs.length - 2 = (content ++ sig).length by omega, List.take_left]
  have hdropsig : (content ++ sig).drop (xs.length - 2 - L) = sig := by
    rw [show xs.length - 2 - L = content.length by omega, List.drop_left]
  have htakec : (xs ++ 1 :: List.replicate p 0).take (xs.length - 2 - L) = content := by
    have hsplit2 : xs ++ 1 :: List.replicate p 0 =
        content ++ (sig ++ (toBytesBE 2 L ++ 1 :: List.replicate p 0)) := by
      simp [hxs]
    rw [hsplit2, show xs.length - 2 - L = content.length by omega, List.take_left]
  unfold MLSPlaintext.unmarshal_content
  rw [scanLoop_frame xs 1 one_ne_zero p]
  simp only [except_bind_ok]
  rw [if_neg (by rw [hmarker]; simp)]
  rw [if_neg (by omega)]
  simp only [hidx2, hidx1, hsig_len]
  rw [if_neg (by omega)]
  rw [htake2, hdropsig, htakec]
  simp only [except_pure]

theorem goodEnc_WireNode :
    GoodEnc encWireNode decWireNode (fun n => n.public_key.length < 256 ^ 2) := by
  intro n h
  constructor
  · intro r
    simp only [decWireNode, encWireNode]
    rw [decVar_encode h]
    rfl
  · simp [encWireNode, encVar]
    omega

theorem goodEnc_OptWireNode :
    GoodEnc (encOpt encWireNode) (decOpt decWireNode)
      (fun ond => ∀ w ∈ ond, w.public_key.length < 256 ^ 2) := by
  intro ond h
  constructor
  · intro r
    exact decOpt_encOpt goodEnc_WireNode ond h r
  · cases ond <;> simp [encOpt]

theorem decRatchetTree_enc {s : Nat} {t : RatchetTreeW} (h : t.WF) (r : bytes) :
    decRatchetTree s (encRatchetTree t ++ r) = .ok ({ suite := s, nodes := t.nodes }, r) := by
  obtain ⟨hn, hlen⟩ := h
  simp only [decRatchetTree, encRatchetTree]
  rw [decVec_encVec goodEnc_OptWireNode _ hn hlen]
  rfl

theorem decWelcomeInfo_enc {s : Nat} {w : WelcomeInfo} (h : w.WF) (r : bytes) :
    decWelcomeInfo s (encWelcomeInfo w ++ r) =
      .ok ({ suite := s, version := w.version, group_id := w.group_id,
             epoch := w.epoch, tree := { suite := s, nodes := w.tree.nodes },
             interim_transcript_hash := w.interim_transcript_hash,
             init_secret := w.init_secret }, r) := by
  obtain ⟨h1, h2, h3, h4, h5, h6⟩ := h
  simp only [decWelcomeInfo, encWelcomeInfo, List.append_assoc]
  rw [decUint_encode_of_lt h1]
  simp only [except_bind_ok]
  rw [decVar_encode h2]
  simp only [except_bind_ok]
  rw [decUint_encode_of_lt h3]
  simp only [except_bind_ok]
  rw [decRatchetTree_enc h4]
  simp only [except_bind_ok]
  rw [decVar_encode h5]
  simp only [except_bind_ok]
  rw [decVar_encode h6]
  rfl

theorem resolution_offPath {t : RTree} (h : offPath t) :
    ∀ nd ∈ resolution t, nd.priv = none := by
  induction t with
  | leaf nd =>
    cases nd with
    | none => simp [resolution]
    | some x => simpa [resolution, offPath] using h
  | parent nd l r ihl ihr =>
    obtain ⟨hnd, hl, hr⟩ := h
    cases nd with
    | none =>
      intro x hx
      rw [resolution] at hx
      rcases List.mem_append.mp hx with hx | hx
      · exact ihl hl x hx
      · exact ihr hr x hx
    | some y =>
      intro x hx
      rw [resolution] at hx
      rw [List.mem_singleton] at hx
      subst hx
      exact hnd x rfl

theorem findPriv_append_left {as bs : List RNode} {cas cbs : List HPKECiphertext}
    {x : bytes × HPKECiphertext} (h : findPriv as cas = some x) :
    findPriv (as ++ bs) (cas ++ cbs) = some x := by
  induction as generalizing cas with
  | nil => rw [findPriv] at h; cases h
  | cons nd nds ih =>
    cases cas with
    | nil => rw [findPriv] at h; cases h
    | cons ct cts =>
      rw [findPriv] at h
      rw [List.cons_append, List.cons_append, findPriv]
      cases hp : nd.priv with
      | some p => rw [hp] at h; exact h
      | none => rw [hp] at h; exact ih h

theorem findPriv_append_none {as bs : List RNode} {cas cbs : List HPKECiphertext}
    (h : ∀ nd ∈ as, nd.priv = none) (hlen : as.length = cas.length) :
    findPriv (as ++ bs) (cas ++ cbs) = findPriv bs cbs := by
  induction as generalizing cas with
  | nil =>
    cases cas with
    | nil => rfl
    | cons c cs => simp at hlen
  | cons nd nds ih =>
    cases cas with
    | nil => simp at hlen
    | cons ct cts =>
      rw [List.cons_append, List.cons_append, findPriv, h nd (by simp)]
      exact ih (fun y hy => h y (by simp [hy])) (by simpa using hlen)

theorem findPriv_resolution {t : RTree} {ds : List Bool} (h : onPath t ds)
    (suite : Nat) (m : bytes) :
    ∃ p, findPriv (resolution t)
        ((resolution t).map (fun v => hpkeSeal suite v.pub m)) =
      some (p, hpkeSeal suite (dhPub p) m) := by
  induction t generalizing ds with
  | leaf nd =>
    cases nd with
    | none => exact absurd h (by simp [onPath])
    | some x =>
      cases ds with
      | cons d ds => exact absurd h (by simp [onPath])
      | nil =>
        rw [onPath] at h
        obtain ⟨p, hp, hpub⟩ := h
        refine ⟨p, ?_⟩
        rw [resolution]
        simp [findPriv, hp, hpub]
  | parent nd l r ihl ihr =>
    cases ds with
    | nil => exact absurd h (by simp [onPath])
    | cons d ds =>
      rw [onPath] at h
      obtain ⟨hnd, hchild, hoff⟩ := h
      cases nd with
      | some x =>
        obtain ⟨p, hp, hpub⟩ := hnd x rfl
        refine ⟨p, ?_⟩
        rw [resolution]
        simp [findPriv, hp, hpub]
      | none =>
        rw [resolution]
        cases d with
        | false =>
          simp at hchild hoff
          obtain ⟨p, hfind⟩ := ihl hchild
          exact ⟨p, by rw [List.map_append]; exact findPriv_append_left hfind⟩
        | true =>
          simp at hchild hoff
          obtain ⟨p, hfind⟩ := ihr hchild
          refine ⟨p, ?_⟩
          rw [List.map_append,
            findPriv_append_none (resolution_offPath hoff) (by simp)]
          exact hfind

theorem setPathSecret_encryptPath {suite : Nat} {t : RTree} {ds : List Bool}
    {s us : bytes} {path : List PathNode}
    (h : encryptPath suite t ds s = some (path, us)) :
    setPathSecret t ds s = some us := by
  induction t generalizing ds s us path with
  | leaf nd =>
    cases ds with
    | nil => rw [encryptPath] at h; cases h; rfl
    | cons d ds => rw [encryptPath] at h; cases h
  | parent nd l r ihl ihr =>
    cases ds with
    | nil => rw [encryptPath] at h; cases h
    | cons d ds =>
      rw [encryptPath] at h
      rw [setPathSecret]
      cases d with
      | false =>
        simp only [Bool.false_eq_true, eq_self_iff_true, if_false, if_true] at h ⊢
        cases he : encryptPath suite l ds s with
        | none => rw [he] at h; cases h
        | some v =>
          rw [he] at h
          obtain ⟨recs, s0⟩ := v
          simp only at h
          cases h
          rw [ihl he]
      | true =>
        simp only [Bool.false_eq_true, eq_self_iff_true, if_false, if_true] at h ⊢
        cases he : encryptPath suite r ds s with
        | none => rw [he] at h; cases h
        | some v =>
          rw [he] at h
          obtain ⟨recs, s0⟩ := v
          simp only at h
          cases h
          rw [ihr he]

/-!
## The claims
-/

/-- C1: for every `MLSPlaintext` whose `content_type` is handshake or
application (with the structural invariants of the source: the signature fits
the `uint16` length field of the framing, and a handshake plaintext carries a
populated, well-formed operation), `marshal_content(p)` followed by
`unmarshal_content` recovers the original operation
(resp. `application_data`) and the original signature exactly.  Recovery of
the operation is stated with the program's own `GroupOperation` equality,
which ignores the credential private key that serialization necessarily
drops. -/
theorem C1_padded_content_roundtrip (pt : MLSPlaintext) (p s : Nat)
    (hsig : pt.signature.length < 256 ^ 2)
    (hhs : pt.content_type = CThandshake → ∃ op, pt.operation = some op ∧ op.WF s)
    (hct : pt.content_type = CThandshake ∨ pt.content_type = CTapplication) :
    ∃ m res, pt.marshal_content p = .ok m ∧
      MLSPlaintext.unmarshal_content pt.content_type s m = .ok res ∧
      res.signature = pt.signature ∧
      (pt.content_type = CThandshake →
        ∃ op dop, pt.operation = some op ∧ res.operation = some dop ∧
          groupOperationEq op dop = .ok true) ∧
      (pt.content_type = CTapplication →
        res.application_data = some pt.application_data) := by
  rcases hct with hch | hca
  · obtain ⟨op, hop, hWF⟩ := hhs hch
    obtain ⟨e, henc, hdec⟩ := decGroupOperation_enc hWF []
    rw [List.append_nil] at hdec
    refine ⟨e ++ pt.signature ++ toBytesBE 2 (pt.signature.length % 256 ^ 2) ++ [1] ++
      List.replicate p 0,
      { operation := some op.scrub, application_data := none, signature := pt.signature },
      ?_, ?_, rfl, ?_, ?_⟩
    · simp only [MLSPlaintext.marshal_content, hch, if_pos rfl, hop, optValue_some,
        except_bind_ok, henc]
      rfl
    · rw [unmarshal_content_frame pt.content_type s e pt.signature hsig p, hch,
        if_pos rfl, hdec]
      rfl
    · intro _
      exact ⟨op, op.scrub, hop, rfl, groupOperationEq_scrub (populated_of_WF hWF)⟩
    · intro hc
      rw [hch] at hc
      simp [CThandshake, CTapplication] at hc
  · refine ⟨pt.application_data ++ pt.signature ++
      toBytesBE 2 (pt.signature.length % 256 ^ 2) ++ [1] ++ List.replicate p 0,
      { operation := none, application_data := some pt.application_data,
        signature := pt.signature }, ?_, ?_, rfl, ?_, fun _ => rfl⟩
    · rw [MLSPlaintext.marshal_content, hca]
      simp [CThandshake, CTapplication]
    · rw [unmarshal_content_frame pt.content_type s pt.application_data pt.signature hsig p,
        hca]
      simp [CThandshake, CTapplication]
    · intro hc
      rw [hca] at hc
      simp [CThandshake, CTapplication] at hc

/-- Witness for C1 at concrete inputs: a handshake plaintext carrying a
small update operation, and padding 4. -/
theorem C1_padded_content_roundtrip_witness :
    ∃ m res, ptHsW.marshal_content 4 = .ok m ∧
      MLSPlaintext.unmarshal_content ptHsW.content_type 0 m = .ok res ∧
      res.signature = ptHsW.signature ∧
      (ptHsW.content_type = CThandshake →
        ∃ op dop, ptHsW.operation = some op ∧ res.operation = some dop ∧
          groupOperationEq op dop = .ok true) ∧
      (ptHsW.content_type = CTapplication →
        res.application_data = some ptHsW.application_data) :=
  C1_padded_content_roundtrip ptHsW 4 0 (by decide)
    (fun _ => ⟨GroupOperation.ofUpdate updW, rfl, by decide⟩) (Or.inl rfl)

/-- C2: the claim asserts `unmarshal_content` is total and fails only with
`ProtocolError`, in particular on an all-zero input.  On the all-zero input
`[0x00]` (and on the empty input) the tail scan instead evaluates
`marshaled[cut]` before its `cut >= 0` bounds check and reads `marshaled[-1]`
— an out-of-bounds access (undefined behavior), not a `ProtocolError`. -/
theorem C2_unmarshal_content_out_of_bounds :
    MLSPlaintext.unmarshal_content CTapplication 0 [0] = .error Err.outOfBoundsRead ∧
    MLSPlaintext.unmarshal_content CTapplication 0 [] = .error Err.outOfBoundsRead := by
  constructor <;> rfl

/-- C3: the claim asserts that two application plaintexts compare by their
`application_data`.  In the source, the `application_data` conjunct of
`operator==` evaluates `lhs.operation.value()`; for an application message
`operation` is absent, so comparing an application plaintext (here even with
itself) raises `std::bad_optional_access` instead of returning a Boolean. -/
theorem C3_application_equality_throws :
    mlsPlaintextEq ptAppW ptAppW = .error Err.badOptionalAccess ∧
    ptAppW.content_type = CTapplication ∧ ptAppW.operation = none := by
  exact ⟨rfl, rfl, rfl⟩

/-- C4 counterexample: decoding a `GroupOperation` with unknown leading tag
octet `0` (`GroupOperationType::none`) fails with `InvalidParameterError`,
not with `InvalidMessageTypeError` as the claim states. -/
theorem C4_unknown_tag_counterexample :
    decGroupOperation 0 [0] = .error Err.invalidParameter ∧
    decGroupOperation 0 [0] ≠ .error Err.invalidMessageType := by
  constructor <;> decide

/-- C4 (amended): decoding a `GroupOperation` whose leading tag octet is not
one of add, update, or remove fails with an `InvalidParameterError` (the
source's `operator>>` throws `InvalidParameterError("Unknown group operation
type")`, not `InvalidMessageTypeError`). -/
theorem C4_unknown_tag_invalid_parameter (s t : Nat) (rest : bytes)
    (h1 : t ≠ GOTadd) (h2 : t ≠ GOTupdate) (h3 : t ≠ GOTremove) :
    decGroupOperation s (t :: rest) = .error Err.invalidParameter := by
  have hd : decUint 1 (t :: rest) = .ok (t, rest) := by
    simp [decUint, fromBytesBE]
  simp [decGroupOperation, hd, h1, h2, h3]

/-- Witness for C4 (amended) at the concrete unknown tag octet `255`. -/
theorem C4_unknown_tag_invalid_parameter_witness :
    decGroupOperation 0 [255, 1, 2] = .error Err.invalidParameter :=
  C4_unknown_tag_invalid_parameter 0 255 [1, 2] (by decide) (by decide) (by decide)

/-- C5: the claim asserts `ClientInitKey` equality ignores differing
signature bytes when both verify.  In the source, `operator==` — despite the
comment directly above it — compares `signature` byte-for-byte: two
`ClientInitKey`s with equal `cipher_suites`, `init_keys` and `credential`
whose two distinct signatures both verify over the common `to_be_signed`
payload compare unequal. -/
theorem C5_equality_compares_signatures :
    cikSigA.verify = true ∧ cikSigB.verify = true ∧
    cikSigA.cipher_suites = cikSigB.cipher_suites ∧
    cikSigA.init_keys = cikSigB.init_keys ∧
    credEq cikSigA.credential cikSigB.credential = true ∧
    cikSigA.signature ≠ cikSigB.signature ∧
    clientInitKeyEq cikSigA cikSigB = false := by
  refine ⟨?_, ?_, rfl, rfl, rfl, ?_, ?_⟩ <;> decide

/-- C6: `ClientInitKey::sign` raises `InvalidParameterError` exactly when
the credential carries no private key or the `cipher_suites` and `init_keys`
lists have different lengths; otherwise it installs the credential and a
signature such that `verify()` returns true (for a credential whose public
key matches its private key, as `Credential` guarantees for key owners). -/
theorem C6_sign_invalid_parameter_iff (k : ClientInitKey) (cred : Credential) :
    ((∃ e, k.sign cred = .error e) ↔
      (cred.privKey = none ∨ k.cipher_suites.length ≠ k.init_keys.length)) ∧
    (∀ e, k.sign cred = .error e → e = .invalidParameter) ∧
    (∀ p out, cred.privKey = some p → cred.pubKey = sigPub p →
      k.sign cred = .ok out → out.verify = true) := by
  refine ⟨⟨?_, ?_⟩, ?_, ?_⟩
  · intro ⟨e, he⟩
    by_contra hno
    push_neg at hno
    obtain ⟨hpriv, hlen⟩ := hno
    cases hp : cred.privKey with
    | none => exact hpriv hp
    | some q => simp [ClientInitKey.sign, hp, hlen] at he
  · intro h
    refine ⟨.invalidParameter, ?_⟩
    rcases h with hp | hl
    · simp [ClientInitKey.sign, hp]
    · cases hp : cred.privKey with
      | none => simp [ClientInitKey.sign, hp]
      | some q => simp [ClientInitKey.sign, hp, hl]
  · intro e he
    cases hp : cred.privKey with
    | none =>
      simp [ClientInitKey.sign, hp] at he
      exact he.symm
    | some q =>
      by_cases hl : k.cipher_suites.length ≠ k.init_keys.length
      · simp [ClientInitKey.sign, hp, hl] at he
        exact he.symm
      · simp [ClientInitKey.sign, hp, hl] at he
  · intro p out hp hpub hok
    by_cases hl : k.cipher_suites.length ≠ k.init_keys.length
    · simp [ClientInitKey.sign, hp, hl] at hok
    · simp [ClientInitKey.sign, hp, hl] at hok
      rw [← hok]
      simp [ClientInitKey.verify, ClientInitKey.to_be_signed, hpub, sigVerify_sigSign]

/-- Witness for C6 at concrete inputs: signing `cikW` with `credW` succeeds
and the result verifies. -/
theorem C6_sign_invalid_parameter_iff_witness :
    credW.privKey = some [3] ∧ credW.pubKey = sigPub [3] ∧
    cikW.sign credW = .ok cikWsigned ∧ cikWsigned.verify = true :=
  ⟨rfl, rfl, rfl,
    (C6_sign_invalid_parameter_iff cikW credW).2.2 [3] cikWsigned rfl rfl rfl⟩

/-- C7: Welcome wrapping round-trips — for every well-formed `WelcomeInfo`,
every key pair of the same cipher suite as the info's tree with the public
key derived from the private key, and every id,
`Welcome(id, pub, info).decrypt(priv)` returns a `WelcomeInfo` that compares
equal to the original (the program's `WelcomeInfo` equality: version,
group id, epoch, tree, transcript hash, init secret). -/
theorem C7_welcome_roundtrip (id : bytes) (pub : DHPublicKey) (priv : DHPrivateKey)
    (info : WelcomeInfo) (hpub : pub.data = dhPub priv.secret)
    (hsuitePriv : priv.suite = info.tree.suite)
    (hsuitePub : pub.suite = info.tree.suite)
    (hWF : info.WF) :
    ∃ info', (Welcome.create id pub info).decrypt priv = .ok info' ∧
      welcomeInfoEq info info' = true := by
  refine ⟨{ suite := priv.suite,
            version := info.version,
            group_id := info.group_id,
            epoch := info.epoch,
            tree := { suite := priv.suite, nodes := info.tree.nodes },
            interim_transcript_hash := info.interim_transcript_hash,
            init_secret := info.init_secret }, ?_, ?_⟩
  · simp only [Welcome.decrypt, Welcome.create, hpub]
    rw [hpkeOpen_hpkeSeal]
    simp only [except_bind_ok, unmarshalWelcomeInfo, marshalWelcomeInfo]
    have hd := decWelcomeInfo_enc (s := priv.suite) hWF []
    rw [List.append_nil] at hd
    rw [hd]
    rfl
  · simp [welcomeInfoEq, ratchetTreeEq]

/-- Witness for C7 at concrete inputs: a one-node tree, the key pair derived
from secret `[5]`, suite `0`. -/
theorem C7_welcome_roundtrip_witness :
    ∃ info', (Welcome.create [1] { suite := 0, data := dhPub [5] }
        { suite := 0, version := mls10Version, group_id := [2], epoch := 0,
          tree := { suite := 0, nodes := [some { public_key := [6] }, none] },
          interim_transcript_hash := [7], init_secret := [8] }).decrypt
        { suite := 0, secret := [5] } = .ok info' ∧
      welcomeInfoEq
        { suite := 0, version := mls10Version, group_id := [2], epoch := 0,
          tree := { suite := 0, nodes := [some { public_key := [6] }, none] },
          interim_transcript_hash := [7], init_secret := [8] } info' = true :=
  C7_welcome_roundtrip [1] _ _ _ rfl rfl rfl (by decide)

/-- C8: ratchet-tree path encryption round-trips — for every tree copy, every
sender leaf and leaf secret, if `encrypt(sender, secret)` returns
`(path, update_secret)`, then for every non-sender member `j` whose copy
satisfies the tree invariant (private keys exactly on `j`'s direct path, with
matching public keys), `decrypt(j, path).root_path_secret` equals
`update_secret`; and `set_path(sender, secret)` returns the same
`update_secret`.  (`encrypt` reads only public keys, which agree across the
members' copies, so one tree stands for both.) -/
theorem C8_encrypt_decrypt_roundtrip (suite : Nat) (t : RTree)
    (sender receiver : List Bool) (leaf_secret : bytes)
    (path : List PathNode) (update_secret : bytes)
    (hne : sender ≠ receiver) (hrecv : onPath t receiver)
    (henc : encryptPath suite t sender leaf_secret = some (path, update_secret)) :
    decryptPath t sender receiver path = some update_secret ∧
    setPathSecret t sender leaf_secret = some update_secret := by
  refine ⟨?_, setPathSecret_encryptPath henc⟩
  revert hne hrecv henc
  induction t generalizing sender receiver path update_secret leaf_secret with
  | leaf nd =>
    intro hne hrecv henc
    cases sender with
    | nil =>
      cases receiver with
      | nil => exact absurd rfl hne
      | cons e es => cases nd <;> exact absurd hrecv (by simp [onPath])
    | cons d ds => rw [encryptPath] at henc; cases henc
  | parent nd l r ihl ihr =>
    intro hne hrecv henc
    cases sender with
    | nil => rw [encryptPath] at henc; cases henc
    | cons d ds =>
      cases receiver with
      | nil => exact absurd hrecv (by simp [onPath])
      | cons e es =>
        rw [onPath] at hrecv
        obtain ⟨hnd, hchild, hoff⟩ := hrecv
        rw [encryptPath] at henc
        cases he : encryptPath suite (if d then r else l) ds leaf_secret with
        | none => rw [he] at henc; cases henc
        | some v =>
          obtain ⟨recs, s0⟩ := v
          rw [he] at henc
          simp only [Option.some.injEq, Prod.mk.injEq] at henc
          obtain ⟨hpath, hus⟩ := henc
          subst hpath hus
          rw [decryptPath]
          by_cases hde : d = e
          · subst hde
            have hdses : ds ≠ es := fun hh => hne (by rw [hh])
            simp only [eq_self_iff_true, if_true]
            cases d with
            | false =>
              simp only [Bool.false_eq_true, eq_self_iff_true, if_false, if_true]
                at he hchild ⊢
              rw [ihl _ _ _ _ _ hdses hchild he]
            | true =>
              simp only [Bool.false_eq_true, eq_self_iff_true, if_false, if_true]
                at he hchild ⊢
              rw [ihr _ _ _ _ _ hdses hchild he]
          · rw [if_neg hde]
            have hsib : (if e then r else l) = (if d then l else r) := by
              cases d <;> cases e <;> simp_all
            obtain ⟨p, hfind⟩ :=
              findPriv_resolution hchild suite (derivePathSecret s0)
            rw [← hsib, hfind]
            simp [hpkeOpen_hpkeSeal]

/-- Witness for C8 at concrete inputs: the sender at the right leaf of the
two-leaf tree, the receiver at the left leaf. -/
theorem C8_encrypt_decrypt_roundtrip_witness :
    decryptPath treeW [true] [false] [pathNodeW] = some (derivePathSecret [9]) ∧
    setPathSecret treeW [true] [9] = some (derivePathSecret [9]) :=
  C8_encrypt_decrypt_roundtrip 0 treeW [true] [false] [9] [pathNodeW]
    (derivePathSecret [9]) (by decide)
    (by simp [treeW, onPath, offPath, dhPub]) rfl

/-- C9: epoch secret derivation is deterministic — for a fixed cipher suite
and equal inputs `(prev_init_secret, update_secret, group_context)`, two
invocations of `derive_epoch_secrets` return bit-identical `epoch_secret`,
`application_secret`, `confirmation_key` and `init_secret`.  In this pure
embedding the derivation consumes no randomness and no state beyond its
arguments, which is exactly the claimed property. -/
theorem C9_derive_epoch_secrets_deterministic (suite : Nat)
    (i u c i2 u2 c2 : bytes) (h1 : i = i2) (h2 : u = u2) (h3 : c = c2) :
    (derive_epoch_secrets suite i u c).epoch_secret =
      (derive_epoch_secrets suite i2 u2 c2).epoch_secret ∧
    (derive_epoch_secrets suite i u c).application_secret =
      (derive_epoch_secrets suite i2 u2 c2).application_secret ∧
    (derive_epoch_secrets suite i u c).confirmation_key =
      (derive_epoch_secrets suite i2 u2 c2).confirmation_key ∧
    (derive_epoch_secrets suite i u c).init_secret =
      (derive_epoch_secrets suite i2 u2 c2).init_secret := by
  subst h1 h2 h3
  exact ⟨rfl, rfl, rfl, rfl⟩

/-- Witness for C9 at concrete inputs. -/
theorem C9_derive_epoch_secrets_deterministic_witness :
    (derive_epoch_secrets 0 [0] [1] [2]).epoch_secret =
      (derive_epoch_secrets 0 [0] [1] [2]).epoch_secret ∧
    (derive_epoch_secrets 0 [0] [1] [2]).application_secret =
      (derive_epoch_secrets 0 [0] [1] [2]).application_secret ∧
    (derive_epoch_secrets 0 [0] [1] [2]).confirmation_key =
      (derive_epoch_secrets 0 [0] [1] [2]).confirmation_key ∧
    (derive_epoch_secrets 0 [0] [1] [2]).init_secret =
      (derive_epoch_secrets 0 [0] [1] [2]).init_secret :=
  C9_derive_epoch_secrets_deterministic 0 [0] [1] [2] [0] [1] [2] rfl rfl rfl

/-- C10: `GroupOperation` equality is reflexive exactly on the populated
variants: for every operation of type add, update or remove whose matching
body is present, `x == x` returns true, while the default-constructed
operation (type `none`) compares unequal to itself, because `operator==`
additionally requires one of the three typed body comparisons to succeed. -/
theorem C10_group_operation_equality_reflexivity :
    (∀ g : GroupOperation, g.populated → groupOperationEq g g = .ok true) ∧
    groupOperationEq GroupOperation.default GroupOperation.default = .ok false := by
  exact ⟨fun _ h => groupOperationEq_refl h, rfl⟩

/-- Witness for C10 at a concrete populated operation. -/
theorem C10_group_operation_equality_reflexivity_witness :
    groupOperationEq (GroupOperation.ofUpdate updW) (GroupOperation.ofUpdate updW) =
      .ok true :=
  C10_group_operation_equality_reflexivity.1 (GroupOperation.ofUpdate updW) (by decide)

end MLSpp
